import Mathlib

/-!
Verification of the `uzb` file-matcher (src/main.py).

The program walks a root directory, scores every regular file against a text
query (difflib-based fuzzy similarity on the lowercased basename and relative
path, substring bonuses, and a capped content-occurrence bonus), sorts the
candidates by descending score with Python's stable sort, and copies the top-N
into the reserved `uzb` subdirectory under flattened, collision-free names.

Strings are modelled as `List Char`, scores as `ℚ` (the float constants 1.0,
0.25, 0.50, 0.05 are exact dyadic/decimal rationals), `str.lower` as a
character-wise lowercase map except for the one length-expanding mapping
U+0130 → "i" + U+0307, and file I/O as explicit oracles: the content of
a file is an `Option (List UInt8)` (`none` models an OSError raised by
`open`/`read`), the filesystem is an inductive tree of entries, and the final
`main` pipeline is a pure function from those oracles to an output record.

`difflib.SequenceMatcher` (stdlib, called with `isjunk = None` on the pair
`(name, q)` resp. `(rel, q)`) is embedded faithfully below: the `b2j` index of
the second sequence purges "popular" elements when `len(b) >= 200` (autojunk),
`find_longest_match` runs the forward dynamic program over `b2j` followed by
the four extension loops (the junk-extension loops are vacuous since the junk
set is empty), `get_matching_blocks` recurses on both sides of each found
block, and `ratio` is `2 * matches / (len(a) + len(b))` with the
`_calculate_ratio` convention of `1.0` for two empty sequences.
-/

/-- Python `str.lower` on a single character: the Unicode lowercase mapping
is single-character for every code point except U+0130 (LATIN CAPITAL LETTER
I WITH DOT ABOVE), which CPython lowercases to the two characters
"i" + U+0307 (COMBINING DOT ABOVE).  `Char.toLower` stands for the
single-character branch of the mapping. -/
def lowerChar (c : Char) : List Char :=
  if c = '\u0130' then ['i', '\u0307'] else [c.toLower]

/-- Models Python `str.lower`: character-wise lowercase, except that U+0130
expands to two characters, so the result can be longer than the input. -/
def lower (s : List Char) : List Char := s.flatMap lowerChar

/-- Models Python `q in s` for strings: `q` occurs contiguously in `s`. -/
def isSub (q s : List Char) : Bool :=
  (List.range (s.length + 1)).any (fun i => decide ((s.drop i).take q.length = q))

/-- Helper for `pyCount`: greedy left-to-right count of non-overlapping
occurrences of a non-empty `q`.  Every step consumes at least one character of
`s`, so fuel `s.length` makes the recursion structural without changing the
value (fuel can run out only once `s` is empty, where the count is 0). -/
def pyCountGo (q : List Char) : Nat → List Char → Nat
  | 0, _ => 0
  | fuel + 1, s =>
    if s.take q.length = q then 1 + pyCountGo q fuel (s.drop q.length)
    else
      match s with
      | [] => 0
      | _ :: t => pyCountGo q fuel t

/-- Models Python `s.count(q)`: non-overlapping occurrences; the empty string
is counted `len(s) + 1` times, exactly as CPython does. -/
def pyCount (s q : List Char) : Nat :=
  if q = [] then s.length + 1 else pyCountGo q s.length s

/-- Models `os.path.basename` for POSIX separators: the part after the last
`'/'`. -/
def basename (p : List Char) : List Char :=
  (p.reverse.takeWhile (fun c => c != '/')).reverse

/-- Length of the longest common prefix of two strings (used to state the
reference gestalt matching). -/
def lcp : List Char → List Char → Nat
  | x :: xs, y :: ys => if x = y then lcp xs ys + 1 else 0
  | _, _ => 0

/-! ## The difflib.SequenceMatcher embedding -/

/-- Number of occurrences of `c` in `b` (the index list length in `__chain_b`). -/
def bOcc (b : List Char) (c : Char) : Nat := (b.filter (fun x => x == c)).length

/-- The autojunk "popular" test of `SequenceMatcher.__chain_b`: with
`autojunk = True` (the default) and `len(b) >= 200`, elements occurring more
than `len(b) // 100 + 1` times are purged from the index. -/
def isPopularB (b : List Char) (c : Char) : Bool :=
  decide (200 ≤ b.length) && decide (b.length / 100 + 1 < bOcc b c)

/-- The `b2j` index of `__chain_b`: the ascending list of positions of `c`
in `b`, empty for popular elements (the junk set is empty since
`isjunk = None`). -/
def b2j (b : List Char) (c : Char) : List Nat :=
  if isPopularB b c then []
  else (List.range b.length).filter (fun j => b.get? j == some c)

/-- The junk test `isbjunk` of `find_longest_match`: always false because the
matcher is constructed with `isjunk = None`. -/
def bjunk (_ : Char) : Bool := false

/-- One step of the inner `for j in b2j.get(a[i], nothing)` loop of
`find_longest_match`: extends the `newj2len` row and updates the running best
block when the chain through `(i, j)` is strictly longer. -/
def flmStepJ (j2len : Nat → Nat) (i : Nat)
    (st : (Nat → Nat) × Nat × Nat × Nat) (j : Nat) : (Nat → Nat) × Nat × Nat × Nat :=
  let k := (if j = 0 then 0 else j2len (j - 1)) + 1
  let nj : Nat → Nat := fun j' => if j' = j then k else st.1 j'
  if st.2.2.2 < k then (nj, i + 1 - k, j + 1 - k, k) else (nj, st.2)

/-- The inner loop of `find_longest_match` for one row `i`: the `j`s run over
`b2j[a[i]]` restricted to the window (`continue` below `blo`, `break` at
`bhi`; since the index list is ascending, both equal this filter). -/
def flmInner (a b : List Char) (blo bhi : Nat) (i : Nat)
    (j2len : Nat → Nat) (best : Nat × Nat × Nat) : (Nat → Nat) × Nat × Nat × Nat :=
  ((b2j b (a.getD i 'a')).filter (fun j => decide (blo ≤ j) && decide (j < bhi))).foldl
    (flmStepJ j2len i) ((fun _ => 0), best)

/-- The dynamic-programming part of `find_longest_match`: rows
`i = alo, ..., ahi - 1`, with `j2len = {}` and
`besti, bestj, bestsize = alo, blo, 0` initially. -/
def flmLoop (a b : List Char) (alo ahi blo bhi : Nat) : Nat × Nat × Nat :=
  (((List.range' alo (ahi - alo)).foldl
    (fun st i => flmInner a b blo bhi i st.1 st.2) ((fun _ => 0), alo, blo, 0))).2

/-- A backward extension loop of `find_longest_match`
(`while besti > alo and bestj > blo and p(b[bestj-1]) and a[besti-1] == b[bestj-1]`).
Each iteration decrements `besti`, whose positivity the guard requires, so
fuel `besti` makes the while loop structural without changing its result. -/
def extBack (a b : List Char) (alo blo : Nat) (p : Char → Bool) :
    Nat → Nat → Nat → Nat → Nat × Nat × Nat
  | 0, besti, bestj, bestsize => (besti, bestj, bestsize)
  | fuel + 1, besti, bestj, bestsize =>
    if alo < besti ∧ blo < bestj ∧ p (b.getD (bestj - 1) 'a') = true ∧
        a.getD (besti - 1) 'a' = b.getD (bestj - 1) 'a' then
      extBack a b alo blo p fuel (besti - 1) (bestj - 1) (bestsize + 1)
    else (besti, bestj, bestsize)

/-- A forward extension loop of `find_longest_match`
(`while besti+bestsize < ahi and bestj+bestsize < bhi and p(b[bestj+bestsize])
and a[besti+bestsize] == b[bestj+bestsize]`).  Each iteration increments
`bestsize` while the guard keeps `besti + bestsize < ahi`, so fuel `ahi`
makes the while loop structural without changing its result. -/
def extFwd (a b : List Char) (ahi bhi : Nat) (p : Char → Bool) :
    Nat → Nat → Nat → Nat → Nat × Nat × Nat
  | 0, besti, bestj, bestsize => (besti, bestj, bestsize)
  | fuel + 1, besti, bestj, bestsize =>
    if besti + bestsize < ahi ∧ bestj + bestsize < bhi ∧
        p (b.getD (bestj + bestsize) 'a') = true ∧
        a.getD (besti + bestsize) 'a' = b.getD (bestj + bestsize) 'a' then
      extFwd a b ahi bhi p fuel besti bestj (bestsize + 1)
    else (besti, bestj, bestsize)

/-- `SequenceMatcher.find_longest_match` on the window
`a[alo:ahi]`, `b[blo:bhi]`: the dynamic program followed by the two non-junk
extension loops and the two junk extension loops (vacuous: `bjunk` is empty). -/
def findLongestMatch (a b : List Char) (alo ahi blo bhi : Nat) : Nat × Nat × Nat :=
  let m0 := flmLoop a b alo ahi blo bhi
  let m1 := extBack a b alo blo (fun c => !bjunk c) m0.1 m0.1 m0.2.1 m0.2.2
  let m2 := extFwd a b ahi bhi (fun c => !bjunk c) ahi m1.1 m1.2.1 m1.2.2
  let m3 := extBack a b alo blo bjunk m2.1 m2.1 m2.2.1 m2.2.2
  extFwd a b ahi bhi bjunk ahi m3.1 m3.2.1 m3.2.2

/-- Total size of the matching blocks found by `get_matching_blocks` below a
window.  The CPython version keeps a LIFO work queue of independent windows;
the multiset of blocks it collects is exactly this recursive decomposition
(with its guards `if alo < i and blo < j` / `if i+k < ahi and j+k < bhi`), and
`ratio` consumes only the sum of the block sizes, which is order-independent.
The fuel dominates the recursion depth for every reachable call. -/
def gmbTotal (a b : List Char) : Nat → Nat → Nat → Nat → Nat → Nat
  | 0, _, _, _, _ => 0
  | fuel + 1, alo, ahi, blo, bhi =>
    let m := findLongestMatch a b alo ahi blo bhi
    if m.2.2 = 0 then 0
    else m.2.2 +
      (if alo < m.1 ∧ blo < m.2.1 then gmbTotal a b fuel alo m.1 blo m.2.1 else 0) +
      (if m.1 + m.2.2 < ahi ∧ m.2.1 + m.2.2 < bhi then
        gmbTotal a b fuel (m.1 + m.2.2) ahi (m.2.1 + m.2.2) bhi else 0)

/-- The `matches` quantity of `SequenceMatcher.ratio`: total matched
characters over the whole pair. -/
def matchesTotal (a b : List Char) : Nat :=
  gmbTotal a b (a.length + b.length + 1) 0 a.length 0 b.length

/-- difflib's `_calculate_ratio`: `2.0 * matches / length`, and `1.0` when
both sequences are empty. -/
def calcRatioQ (m len : Nat) : ℚ :=
  if 0 < len then 2 * (m : ℚ) / (len : ℚ) else 1

/-- `SequenceMatcher(None, a, b).ratio()`. -/
def ratioQ (a b : List Char) : ℚ := calcRatioQ (matchesTotal a b) (a.length + b.length)

/-! ## The reference gestalt (Ratcliff/Obershelp) definition, from the spec -/

/-- Modelled from the spec: the length of the longest matching contiguous
block starting at `(i, j)` that stays inside the window ending at
`(ahi, bhi)`. -/
def blockLen (a b : List Char) (ahi bhi : Nat) (i j : Nat) : Nat :=
  min (lcp (a.drop i) (b.drop j)) (min (ahi - i) (bhi - j))

/-- Modelled from the spec: "recursively find the longest matching contiguous
block".  Scans all starting pairs of the window in lexicographic order and
keeps the first block of maximal length (the classic first-found longest
block); `(alo, blo, 0)` when there is none. -/
def specLM (a b : List Char) (alo ahi blo bhi : Nat) : Nat × Nat × Nat :=
  (List.range' alo (ahi - alo)).foldl (fun best i =>
    (List.range' blo (bhi - blo)).foldl (fun best j =>
      let k := blockLen a b ahi bhi i j
      if best.2.2 < k then (i, j, k) else best) best) (alo, blo, 0)

/-- Modelled from the spec: "recurse on the prefix/suffix remainders, sum
matched lengths" — the total matched characters of the greedy gestalt
decomposition.  Fuel as in `gmbTotal`. -/
def gestaltTotal (a b : List Char) : Nat → Nat → Nat → Nat → Nat → Nat
  | 0, _, _, _, _ => 0
  | fuel + 1, alo, ahi, blo, bhi =>
    let m := specLM a b alo ahi blo bhi
    if m.2.2 = 0 then 0
    else m.2.2 +
      (if alo < m.1 ∧ blo < m.2.1 then gestaltTotal a b fuel alo m.1 blo m.2.1 else 0) +
      (if m.1 + m.2.2 < ahi ∧ m.2.1 + m.2.2 < bhi then
        gestaltTotal a b fuel (m.1 + m.2.2) ahi (m.2.1 + m.2.2) bhi else 0)

/-- Modelled from the spec: `ratio = 2 * (total matched characters) /
(len(a) + len(b))`, "Result in [0,1]"; the degenerate empty/empty pair is
taken as `1` (full match of nothing, difflib's own convention). -/
def gestaltRatioQ (a b : List Char) : ℚ :=
  if 0 < a.length + b.length then
    2 * (gestaltTotal a b (a.length + b.length + 1) 0 a.length 0 b.length : ℚ) /
      ((a.length : ℚ) + (b.length : ℚ))
  else 1

/-! ## Semantic helpers for the dynamic program (proof-side definitions) -/

/-- Positions `i` of `a` and `j` of `b` hold equal characters and the `b`
character is not purged as popular — exactly the pairs `find_longest_match`
can chain through. -/
def okPairP (a b : List Char) (i j : Nat) : Bool :=
  match a.get? i, b.get? j with
  | some x, some y => x == y && !isPopularB b y
  | _, _ => false

/-- Length of the longest chain of `okPairP` pairs ending at `(i, j)` whose
start stays at or above `(alo, blo)` — the semantic value of the `j2len`
dynamic program. -/
def wsuffP (a b : List Char) (alo blo : Nat) (i j : Nat) : Nat :=
  if okPairP a b i j = true ∧ alo ≤ i ∧ blo ≤ j then
    (if h2 : alo < i ∧ blo < j then wsuffP a b alo blo (i - 1) (j - 1) else 0) + 1
  else 0
termination_by i
decreasing_by omega

/-- The lexicographically ordered list of window cells. -/
def gridCells (alo ahi blo bhi : Nat) : List (Nat × Nat) :=
  (List.range' alo (ahi - alo)).flatMap
    (fun i => (List.range' blo (bhi - blo)).map (fun j => (i, j)))

/-- Pure per-cell step describing the dynamic program's best-block update at
an end cell. -/
def bestStepE (a b : List Char) (alo blo : Nat)
    (best : Nat × Nat × Nat) (c : Nat × Nat) : Nat × Nat × Nat :=
  let k := wsuffP a b alo blo c.1 c.2
  if best.2.2 < k then (c.1 + 1 - k, c.2 + 1 - k, k) else best

/-- Pure per-cell step describing the spec scan's best-block update at a start
cell. -/
def bestStepS (a b : List Char) (ahi bhi : Nat)
    (best : Nat × Nat × Nat) (c : Nat × Nat) : Nat × Nat × Nat :=
  let k := blockLen a b ahi bhi c.1 c.2
  if best.2.2 < k then (c.1, c.2, k) else best

/-- Strict lexicographic order on cells. -/
def lexLt (c d : Nat × Nat) : Prop := c.1 < d.1 ∨ (c.1 = d.1 ∧ c.2 < d.2)

/-- A well-formed matching block inside the window: both segments stay in the
window and the characters match position-wise (the trivial block `(alo, blo, 0)`
is well-formed whenever the window is). -/
def okBlock (a b : List Char) (alo ahi blo bhi : Nat) (m : Nat × Nat × Nat) : Prop :=
  alo ≤ m.1 ∧ blo ≤ m.2.1 ∧ m.1 + m.2.2 ≤ ahi ∧ m.2.1 + m.2.2 ≤ bhi ∧
    ∀ t < m.2.2, ∃ c, a.get? (m.1 + t) = some c ∧ b.get? (m.2.1 + t) = some c

/-- The semantic value of the `j2len` dictionary before row `i` is processed:
row `i - 1` of the chain-length table, restricted to the window columns
(all zeros before the first row). -/
def dpRow (a b : List Char) (alo blo bhi : Nat) (i : Nat) : Nat → Nat :=
  fun j => if blo ≤ j ∧ j < bhi ∧ alo < i then wsuffP a b alo blo (i - 1) j else 0

/-! ## Scoring (score_file, src/main.py lines 19-53) -/

/-- The substring bonus of `score_file`: `+0.50` if `q in name`, `elif`
`+0.25` if `q in rel`. -/
def subBonus (q name rel : List Char) : ℚ :=
  if isSub q name then 1/2 else if isSub q rel then 1/4 else 0

/-- CPython's permissive UTF-8 decoder with `errors="ignore"`: continuation
byte test. -/
def contB (x : UInt8) : Bool := decide (0x80 ≤ x) && decide (x ≤ 0xBF)

/-- Validity of the second byte of a multi-byte sequence given its lead byte
(the restricted ranges exclude overlong forms, surrogates and values beyond
U+10FFFF, as CPython does). -/
def contB2 (b0 b1 : UInt8) : Bool :=
  if b0 == 0xE0 then decide (0xA0 ≤ b1) && decide (b1 ≤ 0xBF)
  else if b0 == 0xED then decide (0x80 ≤ b1) && decide (b1 ≤ 0x9F)
  else if b0 == 0xF0 then decide (0x90 ≤ b1) && decide (b1 ≤ 0xBF)
  else if b0 == 0xF4 then decide (0x80 ≤ b1) && decide (b1 ≤ 0x8F)
  else contB b1

/-- One decoding step of CPython's UTF-8 decoder at lead byte `b0` with the
following bytes `rest`: `none` means a truncated sequence at the end of input
(dropped under `errors="ignore"`); `some (c?, used)` consumes `used`
additional bytes beyond `b0` and emits `c?` (`none` for an ill-formed
sequence, whose maximal valid subpart `b0, ..., b0+used` is skipped). -/
def utf8Step (b0 : UInt8) (rest : List UInt8) : Option (Option Char × Nat) :=
  if b0 ≤ 0x7F then some (some (Char.ofNat b0.toNat), 0)
  else if 0xC2 ≤ b0 ∧ b0 ≤ 0xDF then
    match rest with
    | [] => none
    | b1 :: _ =>
      if contB b1 then
        some (some (Char.ofNat ((b0.toNat - 0xC0) * 0x40 + (b1.toNat - 0x80))), 1)
      else some (none, 0)
  else if 0xE0 ≤ b0 ∧ b0 ≤ 0xEF then
    match rest with
    | [] => none
    | b1 :: r2 =>
      if contB2 b0 b1 then
        match r2 with
        | [] => none
        | b2 :: _ =>
          if contB b2 then
            some (some (Char.ofNat ((b0.toNat - 0xE0) * 0x1000 +
              (b1.toNat - 0x80) * 0x40 + (b2.toNat - 0x80))), 2)
          else some (none, 1)
      else some (none, 0)
  else if 0xF0 ≤ b0 ∧ b0 ≤ 0xF4 then
    match rest with
    | [] => none
    | b1 :: r2 =>
      if contB2 b0 b1 then
        match r2 with
        | [] => none
        | b2 :: r3 =>
          if contB b2 then
            match r3 with
            | [] => none
            | b3 :: _ =>
              if contB b3 then
                some (some (Char.ofNat ((b0.toNat - 0xF0) * 0x40000 +
                  (b1.toNat - 0x80) * 0x1000 + (b2.toNat - 0x80) * 0x40 +
                  (b3.toNat - 0x80))), 3)
              else some (none, 2)
          else some (none, 1)
      else some (none, 0)
  else some (none, 0)

/-- Decoding loop: every step consumes at least the lead byte, so fuel
`l.length` makes the recursion structural without changing the value. -/
def utf8Go : Nat → List UInt8 → List Char
  | 0, _ => []
  | fuel + 1, l =>
    match l with
    | [] => []
    | b0 :: rest =>
      match utf8Step b0 rest with
      | none => []
      | some (some c, used) => c :: utf8Go fuel (rest.drop used)
      | some (none, used) => utf8Go fuel (rest.drop used)

/-- Models `bytes.decode("utf-8", errors="ignore")`: well-formed sequences
decode, ill-formed ones are dropped (the maximal valid subpart is skipped and
decoding resumes at the offending byte), and a truncated tail is dropped. -/
def utf8DecodeIgnore (l : List UInt8) : List Char := utf8Go l.length l

/-- The content bonus of `score_file` (lines 42-51): read at most the first
1,000,000 bytes (`none` models the swallowed read failure), decode
permissively, lowercase, and add `min(0.50, 0.05 * occurrences)` when the
query occurs. -/
def contentBonus (q : List Char) (file : Option (List UInt8)) : ℚ :=
  match file with
  | none => 0
  | some bytes =>
    let text := lower (utf8DecodeIgnore (bytes.take 1000000))
    if isSub q text then min (1/2) ((1/20) * (pyCount text q : ℚ)) else 0

/-- `score_file(rel_path, query, abs_path)` with the file content supplied by
the read oracle `file`. -/
def score_file (rel_path query : List Char) (file : Option (List UInt8)) : ℚ :=
  let q := lower query
  let name := lower (basename rel_path)
  let rel := lower rel_path
  let name_sim := ratioQ name q
  let rel_sim := ratioQ rel q
  name_sim * 1 + rel_sim * (1/4) + subBonus q name rel + contentBonus q file

/-! ## Flattened destination names (unique_flat_name, lines 70-79) -/

/-- Models `rel_path.replace(os.sep, "__")` with the POSIX separator. -/
def flattenRel : List Char → List Char
  | [] => []
  | c :: t => (if c = '/' then ['_', '_'] else [c]) ++ flattenRel t

/-- Models `str.rfind(c)`: the last index of `c` in `p`, `-1` when absent. -/
def rfindIdx (p : List Char) (c : Char) : Int :=
  match p.reverse.findIdx? (fun x => x == c) with
  | some k => (p.length : Int) - 1 - k
  | none => -1

/-- Models `posixpath.splitext`: split at the last dot, provided it lies after
the last separator and the leading component of the basename is not all
dots. -/
def splitextFn (p : List Char) : List Char × List Char :=
  let sepIndex := rfindIdx p '/'
  let dotIndex := rfindIdx p '.'
  if sepIndex < dotIndex then
    let fi := (sepIndex + 1).toNat
    let di := dotIndex.toNat
    if (List.range' fi (di - fi)).any (fun m => !(p.getD m '.' == '.')) then
      (p.take di, p.drop di)
    else (p, [])
  else (p, [])

/-- Decimal digit recursion with structural fuel (`n / 10 < n`, so fuel `n`
always suffices; the fuel-exhausted branch is unreachable for `fuel ≥ n`). -/
def natStrGo : Nat → Nat → List Char
  | 0, n => [Char.ofNat (48 + n)]
  | fuel + 1, n =>
    if n < 10 then [Char.ofNat (48 + n)]
    else natStrGo fuel (n / 10) ++ [Char.ofNat (48 + n % 10)]

/-- Decimal digits of `n` (models Python `str(i)` for the counter). -/
def natStr (n : Nat) : List Char := natStrGo n n

/-- The `while candidate in used_names` loop of `unique_flat_name`, with fuel;
`used.length + 1` trials always suffice (proved below). -/
def uniqueFlatGo (root ext : List Char) (used : List (List Char)) :
    Nat → Nat → List Char
  | 0, i => root ++ ['_', '_'] ++ natStr i ++ ext
  | fuel + 1, i =>
    let candidate := root ++ ['_', '_'] ++ natStr i ++ ext
    if candidate ∈ used then uniqueFlatGo root ext used fuel (i + 1) else candidate

/-- `unique_flat_name(rel_path, used_names)`: flatten, then disambiguate with
`__<counter>` inserted before the extension of the flattened name. -/
def unique_flat_name (rel_path : List Char) (used : List (List Char)) : List Char :=
  let base := flattenRel rel_path
  if base ∈ used then
    let se := splitextFn base
    uniqueFlatGo se.1 se.2 used (used.length + 1) 1
  else base

/-- Destination names assigned across one run, in selection order, threading
the `used_names` set exactly as the copy loop does. -/
def destNames : List (List Char) → List (List Char) → List (List Char)
  | [], _ => []
  | r :: rs, used =>
    let d := unique_flat_name r used
    d :: destNames rs (d :: used)

/-! ## The walker (iter_files, lines 8-17) -/

/-- A filesystem entry: a regular file, a directory with children, or a
non-regular entry (special file, broken symlink, ...) which `os.walk` lists
but the `os.path.isfile` check skips. -/
inductive Entry where
  | file (name : List Char) : Entry
  | dir (name : List Char) (children : List Entry) : Entry
  | special (name : List Char) : Entry

mutual
/-- Size of an entry (an executable fuel measure for the tree walks). -/
def entSize : Entry → Nat
  | .file _ => 1
  | .special _ => 1
  | .dir _ ch => 1 + entsSize ch

/-- Size of a list of entries. -/
def entsSize : List Entry → Nat
  | [] => 1
  | e :: t => entSize e + entsSize t
end

/-- Models `os.path.join`-built root-relative paths (`os.path.relpath` of the
joined path): empty prefix at the root. -/
def relJoin (pre n : List Char) : List Char := if pre = [] then n else pre ++ '/' :: n

/-- The names appearing in `filenames` that pass the `os.path.isfile` check:
exactly the regular files of a directory. -/
def filesOf (es : List Entry) : List (List Char) :=
  es.filterMap (fun e => match e with | .file n => some n | _ => none)

/-- The pruned walk of `iter_files` below one directory, with fuel counting
tree depth (so fuel `entsSize es` always suffices): yield the regular files of
the directory, then descend into its subdirectories in order, skipping any
subdirectory whose root-relative path is exactly `uzb` (the in-place
`dirnames` pruning compares the joined path against `<root>/uzb`, which such
paths and only such paths match). -/
def iterGo : Nat → List Char → List Entry → List (List Char)
  | 0, _, _ => []
  | fuel + 1, pre, es =>
    (filesOf es).map (fun n => relJoin pre n) ++
      es.flatMap (fun e =>
        match e with
        | .dir n ch =>
          if relJoin pre n = ['u', 'z', 'b'] then []
          else iterGo fuel (relJoin pre n) ch
        | _ => [])

/-- `list(iter_files(root_dir))`: the root-relative paths of the regular files
the walk yields, in walk order. -/
def iter_files (es : List Entry) : List (List Char) := iterGo (entsSize es) [] es

/-- The unpruned enumeration of all regular-file relative paths of a tree
(same fuel discipline as `iterGo`). -/
def allGo : Nat → List Char → List Entry → List (List Char)
  | 0, _, _ => []
  | fuel + 1, pre, es =>
    (filesOf es).map (fun n => relJoin pre n) ++
      es.flatMap (fun e =>
        match e with
        | .dir n ch => allGo fuel (relJoin pre n) ch
        | _ => [])

/-- All regular-file relative paths of the tree (no pruning). -/
def allFiles (es : List Entry) : List (List Char) := allGo (entsSize es) [] es

/-- The name of an entry. -/
def entryName : Entry → List Char
  | .file n => n
  | .dir n _ => n
  | .special n => n

/-- A usable entry name: nonempty and free of the path separator (true of any
name a real filesystem can return). -/
def nameOk (n : List Char) : Bool := decide (n ≠ []) && decide ('/' ∉ n)

/-- Well-formedness of a tree, with the same fuel discipline as the walks:
every entry name at every level is usable. -/
def validGo : Nat → List Entry → Bool
  | 0, _ => true
  | fuel + 1, es =>
    es.all (fun e => nameOk (entryName e)) &&
      es.all (fun e => match e with | .dir _ ch => validGo fuel ch | _ => true)

/-- Well-formedness of a tree. -/
def validTree (es : List Entry) : Bool := validGo (entsSize es) es

/-- Boolean string prefix test (is `p` an initial segment of `s`). -/
def isPre (p s : List Char) : Bool := decide (s.take p.length = p)

/-! ## Selection (main, lines 107-110) and the stable sort -/

/-- Stable descending insertion: place `x` before the first element whose
score is not larger. -/
def insertDesc {α : Type} (x : ℚ × α) : List (ℚ × α) → List (ℚ × α)
  | [] => [x]
  | y :: ys => if y.1 ≤ x.1 then x :: y :: ys else y :: insertDesc x ys

/-- Models `scored.sort(key=lambda t: t[0], reverse=True)`: Python's Timsort
is exactly a stable sort on the key, here descending by score. -/
def sortDesc {α : Type} (l : List (ℚ × α)) : List (ℚ × α) := l.foldr insertDesc []

/-- `N = max(0, args.n); top = scored[:N] if N > 0 else []`. -/
def selectTop {α : Type} (scored : List (ℚ × α)) (n : Int) : List (ℚ × α) :=
  let N := (max 0 n).toNat
  if 0 < N then (sortDesc scored).take N else []

/-! ## The main pipeline (main, lines 81-131) -/

/-- Observable outcome of one invocation: the exit code, whether the
output-directory preparation (`ensure_clean_uzb`) ran, the destination names
assigned (every copy attempt), the successful copies with their report data,
how many files were scored, and which messages were emitted. -/
structure RunOut where
  exitCode : Nat
  prep : Bool
  dests : List (List Char)
  copied : List (List Char × List Char × ℚ)
  scoredCount : Nat
  msgErrDir : Bool
  msgNoFiles : Bool
  msgNoCopied : Bool

/-- The copy loop (lines 114-124): assign a destination name (recorded in
`used_names` whether or not the copy succeeds), attempt the copy, report
failures and continue. -/
def copyLoop (copyOk : List Char → Bool) :
    List (ℚ × List Char) → List (List Char) →
    List (List Char) × List (List Char × List Char × ℚ)
  | [], _ => ([], [])
  | (s, rel) :: rest, used =>
    let dest := unique_flat_name rel used
    let r := copyLoop copyOk rest (dest :: used)
    (dest :: r.1, if copyOk rel then (rel, dest, s) :: r.2 else r.2)

/-- The whole `main` as a pure function of the oracles: `isDir` is the
`os.path.isdir` test of the root, `es` the directory tree, `readF` the content
oracle used by scoring, `copyOk` the per-file success of `shutil.copy2`. -/
def mainRun (isDir : Bool) (es : List Entry) (query : List Char) (n : Int)
    (readF : List Char → Option (List UInt8)) (copyOk : List Char → Bool) : RunOut :=
  if isDir = false then
    { exitCode := 1, prep := false, dests := [], copied := [], scoredCount := 0,
      msgErrDir := true, msgNoFiles := false, msgNoCopied := false }
  else
    let files := iter_files es
    if files = [] then
      { exitCode := 0, prep := false, dests := [], copied := [], scoredCount := 0,
        msgErrDir := false, msgNoFiles := true, msgNoCopied := false }
    else
      let scored := files.map (fun rel => (score_file rel query (readF rel), rel))
      let top := selectTop scored n
      let cl := copyLoop copyOk top []
      { exitCode := 0, prep := true, dests := cl.1, copied := cl.2,
        scoredCount := scored.length, msgErrDir := false, msgNoFiles := false,
        msgNoCopied := decide (cl.2 = []) }

/-- Numeric value of a decimal digit character (proof-side inverse of
`natStr`). -/
def digToNat (c : Char) : Nat := c.toNat - 48

/-- Numeric value of a decimal digit string (proof-side inverse of
`natStr`). -/
def digitsVal (s : List Char) : Nat := s.foldl (fun a c => 10 * a + digToNat c) 0

/-! # Theorems -/

/-! ## Shared basic lemmas -/

theorem selectTop_of_nonpos {α : Type} (l : List (ℚ × α)) (n : Int) (hn : n ≤ 0) :
    selectTop l n = [] := by
  unfold selectTop
  have h : (max 0 n).toNat = 0 := by omega
  simp [h]

theorem contentBonus_nonneg (q : List Char) (file : Option (List UInt8)) :
    0 ≤ contentBonus q file := by
  unfold contentBonus
  match file with
  | none => exact le_refl 0
  | some bytes =>
    dsimp only
    split
    · positivity
    · exact le_refl 0

theorem contentBonus_le_half (q : List Char) (file : Option (List UInt8)) :
    contentBonus q file ≤ 1/2 := by
  unfold contentBonus
  match file with
  | none => norm_num
  | some bytes =>
    dsimp only
    split
    · exact min_le_left _ _
    · norm_num

/-! ## Claim C1 (corrected): output-directory preparation -/

/-- Claim C1, as stated, is false on the code: on a tree that yields no
candidates, `main` prints "No files found to scan." and exits with code 0
before `ensure_clean_uzb` runs, so the preparation step is performed zero
times, not once (and a stale `uzb` directory is left untouched rather than
existing and empty). -/
theorem claim1_counterexample :
    (mainRun true [] ['q'] 1 (fun _ => none) (fun _ => true)).prep = false ∧
    (mainRun true [] ['q'] 1 (fun _ => none) (fun _ => true)).exitCode = 0 := by
  decide

/-- Claim C1, amended: for an existing root directory, the output-directory
preparation step is performed exactly once whenever the walk yields at least
one candidate — in particular with `n = 0`, which then assigns no destination
names at all, leaving an existing, empty `uzb` directory — while a walk that
yields no candidates makes the program exit successfully without performing
the preparation. -/
theorem claim1_amended (es : List Entry) (query : List Char) (n : Int)
    (readF : List Char → Option (List UInt8)) (copyOk : List Char → Bool) :
    (iter_files es ≠ [] → (mainRun true es query n readF copyOk).prep = true) ∧
    (iter_files es = [] → (mainRun true es query n readF copyOk).prep = false ∧
      (mainRun true es query n readF copyOk).exitCode = 0) ∧
    (iter_files es ≠ [] → n ≤ 0 →
      (mainRun true es query n readF copyOk).prep = true ∧
      (mainRun true es query n readF copyOk).dests = [] ∧
      (mainRun true es query n readF copyOk).copied = []) := by
  by_cases h : iter_files es = []
  · refine ⟨fun hne => absurd h hne, fun _ => ?_, fun hne => absurd h hne⟩
    simp [mainRun, h]
  · refine ⟨fun _ => ?_, fun he => absurd he h, fun _ hn => ?_⟩
    · simp [mainRun, h]
    · have hsel : selectTop ((iter_files es).map
          (fun rel => (score_file rel query (readF rel), rel))) n = [] :=
        selectTop_of_nonpos _ n hn
      simp [mainRun, h, hsel, copyLoop]

/-- Witness for the amended C1. -/
theorem claim1_witness :
    ((iter_files [Entry.file ['f']] ≠ []) ∧
      (mainRun true [Entry.file ['f']] ['q'] 0 (fun _ => none) (fun _ => true)).prep = true ∧
      (mainRun true [Entry.file ['f']] ['q'] 0 (fun _ => none) (fun _ => true)).dests = []) := by
  have h := (claim1_amended [Entry.file ['f']] ['q'] 0 (fun _ => none) (fun _ => true)).2.2
    (by decide) (by decide)
  exact ⟨by decide, h.1, h.2.1⟩

/-! ## Claim C8 (confirmed): exit codes and fatal precondition -/

/-- Claim C8: if the directory argument does not resolve to an existing
directory, the program reports on the error stream and exits with code 1
having performed no side effects (no preparation, no destination names, no
copies); otherwise it exits with code 0 — including when no files are found
(reported on standard output, not an error) and when no files are copied
(likewise). -/
theorem claim8 (isDir : Bool) (es : List Entry) (query : List Char) (n : Int)
    (readF : List Char → Option (List UInt8)) (copyOk : List Char → Bool) :
    (isDir = false →
      (mainRun isDir es query n readF copyOk).exitCode = 1 ∧
      (mainRun isDir es query n readF copyOk).prep = false ∧
      (mainRun isDir es query n readF copyOk).dests = [] ∧
      (mainRun isDir es query n readF copyOk).copied = [] ∧
      (mainRun isDir es query n readF copyOk).msgErrDir = true) ∧
    (isDir = true →
      (mainRun isDir es query n readF copyOk).exitCode = 0 ∧
      (mainRun isDir es query n readF copyOk).msgErrDir = false) ∧
    (isDir = true → iter_files es = [] →
      (mainRun isDir es query n readF copyOk).msgNoFiles = true) ∧
    (isDir = true → iter_files es ≠ [] →
      (mainRun isDir es query n readF copyOk).copied = [] →
      (mainRun isDir es query n readF copyOk).msgNoCopied = true) := by
  refine ⟨fun h => ?_, fun h => ?_, fun h he => ?_, fun h he hc => ?_⟩
  · subst h; simp [mainRun]
  · subst h
    by_cases he : iter_files es = [] <;> simp [mainRun, he]
  · subst h; simp [mainRun, he]
  · subst h
    simp [mainRun, he] at hc ⊢
    simp [hc]

/-- Witness for C8 (missing root directory). -/
theorem claim8_witness :
    (mainRun false [] [] 1 (fun _ => none) (fun _ => true)).exitCode = 1 ∧
    (mainRun false [] [] 1 (fun _ => none) (fun _ => true)).prep = false := by
  have h := (claim8 false [] [] 1 (fun _ => none) (fun _ => true)).1 rfl
  exact ⟨h.1, h.2.1⟩

/-! ## Claim C2 (confirmed): the non-content score -/

/-- Claim C2: for every relative path, query and file content, the score
decomposes as `nameSimilarity * 1.0 + relSimilarity * 0.25` plus exactly one
substring bonus — `0.50` when the lowercased query is a substring of the
lowercased basename, otherwise `0.25` when it is a substring of the lowercased
relative path, otherwise `0` — with the name match taking precedence, plus
the content bonus. -/
theorem claim2_nonContentScore (rel_path query : List Char) (file : Option (List UInt8)) :
    (score_file rel_path query file =
      ratioQ (lower (basename rel_path)) (lower query) * 1 +
      ratioQ (lower rel_path) (lower query) * (1/4) +
      subBonus (lower query) (lower (basename rel_path)) (lower rel_path) +
      contentBonus (lower query) file) ∧
    (isSub (lower query) (lower (basename rel_path)) = true →
      subBonus (lower query) (lower (basename rel_path)) (lower rel_path) = 1/2) ∧
    (isSub (lower query) (lower (basename rel_path)) = false →
      isSub (lower query) (lower rel_path) = true →
      subBonus (lower query) (lower (basename rel_path)) (lower rel_path) = 1/4) ∧
    (isSub (lower query) (lower (basename rel_path)) = false →
      isSub (lower query) (lower rel_path) = false →
      subBonus (lower query) (lower (basename rel_path)) (lower rel_path) = 0) := by
  refine ⟨rfl, fun h1 => ?_, fun h1 h2 => ?_, fun h1 h2 => ?_⟩
  · simp [subBonus, h1]
  · simp [subBonus, h1, h2]
  · simp [subBonus, h1, h2]

/-- Witness for C2: a path-substring match (not a name match) earns exactly
the 0.25 bonus. -/
theorem claim2_witness :
    subBonus (lower ['b', 'a', 'r']) (lower (basename ['b', 'a', 'r', '/', 'x']))
      (lower ['b', 'a', 'r', '/', 'x']) = 1/4 :=
  (claim2_nonContentScore ['b', 'a', 'r', '/', 'x'] ['b', 'a', 'r'] none).2.2.1
    (by decide) (by decide)

/-! ## Claim C4 (confirmed): the content bonus and read failures -/

/-- Claim C4: the content bonus is computed from at most the first 1,000,000
bytes, decoded permissively and lowercased; it is
`min(0.50, 0.05 * occurrences)` when the lowercased query occurs in that text
and `0` otherwise; it always lies in `[0, 0.50]`; a read failure yields
exactly `0.0` while the file keeps its name/path score; and scoring never
aborts — every walked file is scored no matter what the read oracle does. -/
theorem claim4_contentBonus (rel_path query : List Char) (bytes : List UInt8)
    (es : List Entry) (n : Int) (readF : List Char → Option (List UInt8))
    (copyOk : List Char → Bool) :
    (contentBonus (lower query) (some bytes) =
      contentBonus (lower query) (some (bytes.take 1000000))) ∧
    (contentBonus (lower query) (some bytes) =
      (if isSub (lower query) (lower (utf8DecodeIgnore (bytes.take 1000000))) then
        min (1/2) ((1/20) *
          (pyCount (lower (utf8DecodeIgnore (bytes.take 1000000))) (lower query) : ℚ))
      else 0)) ∧
    (0 ≤ contentBonus (lower query) (some bytes) ∧
      contentBonus (lower query) (some bytes) ≤ 1/2) ∧
    (contentBonus (lower query) none = 0) ∧
    (score_file rel_path query none =
      ratioQ (lower (basename rel_path)) (lower query) * 1 +
      ratioQ (lower rel_path) (lower query) * (1/4) +
      subBonus (lower query) (lower (basename rel_path)) (lower rel_path)) ∧
    ((mainRun true es query n readF copyOk).scoredCount = (iter_files es).length) := by
  refine ⟨?_, rfl, ⟨contentBonus_nonneg _ _, contentBonus_le_half _ _⟩, rfl, ?_, ?_⟩
  · simp [contentBonus, List.take_take]
  · simp [score_file, contentBonus]
  · by_cases he : iter_files es = [] <;> simp [mainRun, he]

/-! ## Claim C6 (confirmed): stable descending selection -/

theorem mem_insertDesc {α : Type} (x z : ℚ × α) (l : List (ℚ × α)) :
    z ∈ insertDesc x l ↔ z = x ∨ z ∈ l := by
  induction l with
  | nil => simp [insertDesc]
  | cons y ys ih =>
    by_cases h : y.1 ≤ x.1
    · simp [insertDesc, h]
    · simp only [insertDesc, if_neg h, List.mem_cons, ih]
      tauto

theorem insertDesc_perm {α : Type} (x : ℚ × α) (l : List (ℚ × α)) :
    (insertDesc x l).Perm (x :: l) := by
  induction l with
  | nil => exact List.Perm.refl _
  | cons y ys ih =>
    by_cases h : y.1 ≤ x.1
    · simp [insertDesc, h]
    · simp only [insertDesc, if_neg h]
      exact (List.Perm.cons y ih).trans (List.Perm.swap x y ys)

theorem sortDesc_perm {α : Type} (l : List (ℚ × α)) : (sortDesc l).Perm l := by
  induction l with
  | nil => exact List.Perm.refl _
  | cons y ys ih =>
    exact (insertDesc_perm y (sortDesc ys)).trans (List.Perm.cons y ih)

theorem mem_sortDesc {α : Type} (z : ℚ × α) (l : List (ℚ × α)) :
    z ∈ sortDesc l ↔ z ∈ l := (sortDesc_perm l).mem_iff

theorem pairwise_insertDesc {α : Type} (ord : ℚ × α → ℚ × α → Prop)
    (x : ℚ × α) (l : List (ℚ × α))
    (hx : ∀ z ∈ l, ord x z)
    (hl : l.Pairwise (fun u v => v.1 < u.1 ∨ (u.1 = v.1 ∧ ord u v))) :
    (insertDesc x l).Pairwise (fun u v => v.1 < u.1 ∨ (u.1 = v.1 ∧ ord u v)) := by
  induction l with
  | nil => simp [insertDesc]
  | cons y ys ih =>
    rw [List.pairwise_cons] at hl
    by_cases h : y.1 ≤ x.1
    · simp only [insertDesc, if_pos h]
      refine List.Pairwise.cons (fun z hz => ?_) (List.Pairwise.cons hl.1 hl.2)
      rcases List.mem_cons.mp hz with hzy | hzys
      · subst hzy
        rcases lt_or_eq_of_le h with hlt | heq
        · exact Or.inl hlt
        · exact Or.inr ⟨heq.symm, hx z (List.mem_cons_self _ _)⟩
      · rcases hl.1 z hzys with hlt | ⟨heq, _⟩
        · exact Or.inl (lt_of_lt_of_le hlt h)
        · rcases lt_or_eq_of_le h with hlt2 | heq2
          · exact Or.inl (heq ▸ hlt2)
          · exact Or.inr ⟨heq2.symm.trans heq, hx z (List.mem_cons_of_mem _ hzys)⟩
    · push_neg at h
      simp only [insertDesc, if_neg (not_le.mpr h)]
      refine List.Pairwise.cons (fun z hz => ?_)
        (ih (fun z hz => hx z (List.mem_cons_of_mem _ hz)) hl.2)
      rcases (mem_insertDesc x z ys).mp hz with hzx | hzys
      · subst hzx
        exact Or.inl h
      · exact hl.1 z hzys

theorem pairwise_sortDesc {α : Type} (ord : ℚ × α → ℚ × α → Prop)
    (l : List (ℚ × α)) (hl : l.Pairwise ord) :
    (sortDesc l).Pairwise (fun u v => v.1 < u.1 ∨ (u.1 = v.1 ∧ ord u v)) := by
  induction l with
  | nil => exact List.Pairwise.nil
  | cons y ys ih =>
    rw [List.pairwise_cons] at hl
    exact pairwise_insertDesc ord y (sortDesc ys)
      (fun z hz => hl.1 z ((mem_sortDesc z ys).mp hz)) (ih hl.2)

/-- Claim C6: selection takes the top `max(0, n)` candidates of the stable
descending sort — it is `take (max 0 n)` of a permutation of the input that is
descending by score with ties kept in original enumeration order — and a
non-positive `n` yields the empty selection (no error). -/
theorem claim6_selection (l : List (ℚ × Nat)) (n : Int)
    (hidx : l.Pairwise (fun u v => u.2 < v.2)) :
    (n ≤ 0 → selectTop l n = []) ∧
    (selectTop l n = (sortDesc l).take (max 0 n).toNat) ∧
    ((sortDesc l).Perm l) ∧
    ((selectTop l n).length = min (max 0 n).toNat l.length) ∧
    ((selectTop l n).Pairwise (fun u v => v.1 ≤ u.1)) ∧
    ((selectTop l n).Pairwise (fun u v => v.1 < u.1 ∨ (u.1 = v.1 ∧ u.2 < v.2))) := by
  have hperm := sortDesc_perm l
  have hpw := pairwise_sortDesc (fun u v => u.2 < v.2) l hidx
  have htake : selectTop l n = (sortDesc l).take (max 0 n).toNat := by
    unfold selectTop
    by_cases h : 0 < (max 0 n).toNat
    · simp [h]
    · have h0 : (max 0 n).toNat = 0 := by omega
      simp [h0]
  have hsel : (selectTop l n).Pairwise
      (fun u v => v.1 < u.1 ∨ (u.1 = v.1 ∧ u.2 < v.2)) := by
    rw [htake]
    exact hpw.sublist (List.take_sublist _ _)
  refine ⟨fun hn => selectTop_of_nonpos l n hn, htake, hperm, ?_, ?_, hsel⟩
  · rw [htake, List.length_take, hperm.length_eq]
  · exact hsel.imp (fun h => by rcases h with h | ⟨h, _⟩ <;> [exact le_of_lt h; exact le_of_eq h.symm])

/-- Witness for C6. -/
theorem claim6_witness :
    selectTop [((1 : ℚ), 0), ((2 : ℚ), 1)] (-1) = [] :=
  (claim6_selection [((1 : ℚ), 0), ((2 : ℚ), 1)] (-1) (by decide)).1 (by norm_num)

/-! ## Claim C5 (confirmed): flattened destination names -/

theorem digitsVal_append_single (xs : List Char) (c : Char) :
    digitsVal (xs ++ [c]) = 10 * digitsVal xs + digToNat c := by
  simp [digitsVal, List.foldl_append]

theorem digitsVal_natStrGo (fuel n : Nat) (h : n ≤ fuel) :
    digitsVal (natStrGo fuel n) = n := by
  induction fuel generalizing n with
  | zero =>
    have hn : n = 0 := by omega
    subst hn
    decide
  | succ fuel ih =>
    by_cases h10 : n < 10
    · simp only [natStrGo, if_pos h10]
      interval_cases n <;> decide
    · simp only [natStrGo, if_neg h10]
      rw [digitsVal_append_single, ih (n / 10) (by omega)]
      have hm : n % 10 < 10 := Nat.mod_lt _ (by omega)
      have hd : digToNat (Char.ofNat (48 + n % 10)) = n % 10 := by
        set r := n % 10 with hr
        interval_cases r <;> decide
      rw [hd]
      omega

theorem digitsVal_natStr (n : Nat) : digitsVal (natStr n) = n :=
  digitsVal_natStrGo n n (le_refl n)

theorem natStr_inj (n m : Nat) (h : natStr n = natStr m) : n = m := by
  have h1 := digitsVal_natStr n
  have h2 := digitsVal_natStr m
  rw [h, h2] at h1
  exact h1.symm

theorem flatCand_inj (root ext : List Char) (i j : Nat)
    (h : root ++ ['_', '_'] ++ natStr i ++ ext = root ++ ['_', '_'] ++ natStr j ++ ext) :
    i = j := by
  simp only [List.append_assoc, List.cons_append, List.nil_append] at h
  have h1 := List.append_cancel_left h
  simp only [List.cons.injEq, true_and] at h1
  exact natStr_inj i j (List.append_cancel_right h1)

theorem exists_free_flatCand (root ext : List Char) (used : List (List Char)) :
    ∃ d, 1 ≤ d ∧ d ≤ used.length + 1 ∧ root ++ ['_', '_'] ++ natStr d ++ ext ∉ used := by
  by_contra hall
  push_neg at hall
  have hmaps : ∀ k ∈ Finset.range (used.length + 1),
      root ++ ['_', '_'] ++ natStr (k + 1) ++ ext ∈ used.toFinset := by
    intro k hk
    rw [List.mem_toFinset]
    exact hall (k + 1) (by omega) (by simp at hk; omega)
  have hcard : used.toFinset.card < (Finset.range (used.length + 1)).card := by
    rw [Finset.card_range]
    exact lt_of_le_of_lt (List.toFinset_card_le used) (by omega)
  obtain ⟨x, hx, y, hy, hxy, heq⟩ :=
    Finset.exists_ne_map_eq_of_card_lt_of_maps_to hcard hmaps
  have hij := flatCand_inj root ext (x + 1) (y + 1) heq
  exact hxy (by omega)

theorem uniqueFlatGo_spec (root ext : List Char) (used : List (List Char)) :
    ∀ fuel i, (∃ d, i ≤ d ∧ d < i + fuel ∧ root ++ ['_', '_'] ++ natStr d ++ ext ∉ used) →
    ∃ d, i ≤ d ∧ uniqueFlatGo root ext used fuel i = root ++ ['_', '_'] ++ natStr d ++ ext ∧
      root ++ ['_', '_'] ++ natStr d ++ ext ∉ used ∧
      (∀ e, i ≤ e → e < d → root ++ ['_', '_'] ++ natStr e ++ ext ∈ used) := by
  intro fuel
  induction fuel with
  | zero =>
    intro i ⟨d, hd1, hd2, _⟩
    omega
  | succ fuel ih =>
    intro i hex
    by_cases hi : root ++ ['_', '_'] ++ natStr i ++ ext ∈ used
    · have hex' : ∃ d, i + 1 ≤ d ∧ d < (i + 1) + fuel ∧
          root ++ ['_', '_'] ++ natStr d ++ ext ∉ used := by
        obtain ⟨d, hd1, hd2, hd3⟩ := hex
        refine ⟨d, ?_, by omega, hd3⟩
        rcases Nat.eq_or_lt_of_le hd1 with hdi | hdi
        · exact absurd hi (hdi ▸ hd3)
        · omega
      obtain ⟨d, hd1, hd2, hd3, hd4⟩ := ih (i + 1) hex'
      refine ⟨d, by omega, ?_, hd3, fun e he1 he2 => ?_⟩
      · rw [uniqueFlatGo]
        simp only [if_pos hi]
        exact hd2
      · rcases Nat.eq_or_lt_of_le he1 with hei | hei
        · exact hei ▸ hi
        · exact hd4 e hei he2
    · refine ⟨i, le_refl i, ?_, hi, fun e he1 he2 => by omega⟩
      rw [uniqueFlatGo]
      simp only [if_neg hi]

theorem unique_flat_name_not_mem (rel_path : List Char) (used : List (List Char)) :
    unique_flat_name rel_path used ∉ used := by
  unfold unique_flat_name
  by_cases hb : flattenRel rel_path ∈ used
  · simp only [if_pos hb]
    obtain ⟨d, hd1, hd2, hd3⟩ :=
      exists_free_flatCand (splitextFn (flattenRel rel_path)).1
        (splitextFn (flattenRel rel_path)).2 used
    obtain ⟨d', _, heq, hnot, _⟩ :=
      uniqueFlatGo_spec (splitextFn (flattenRel rel_path)).1
        (splitextFn (flattenRel rel_path)).2 used (used.length + 1) 1
        ⟨d, hd1, by omega, hd3⟩
    rw [heq]
    exact hnot
  · simpa [if_neg hb] using hb

theorem destNames_not_mem (rels : List (List Char)) (used : List (List Char)) :
    ∀ d ∈ destNames rels used, d ∉ used := by
  induction rels generalizing used with
  | nil => intro d hd; simp [destNames] at hd
  | cons r rs ih =>
    intro d hd
    simp only [destNames, List.mem_cons] at hd
    rcases hd with hd | hd
    · exact hd ▸ unique_flat_name_not_mem r used
    · intro hdu
      exact ih (unique_flat_name r used :: used) d hd (List.mem_cons_of_mem _ hdu)

theorem destNames_nodup (rels : List (List Char)) (used : List (List Char)) :
    (destNames rels used).Nodup := by
  induction rels generalizing used with
  | nil => exact List.nodup_nil
  | cons r rs ih =>
    rw [destNames, List.nodup_cons]
    refine ⟨fun hmem => ?_, ih _⟩
    exact destNames_not_mem rs (unique_flat_name r used :: used) _ hmem
      (List.mem_cons_self _ _)

/-- Claim C5: the destination name is the relative path with every separator
replaced by `__`; on collision with a name already assigned in the same run, a
counter `__<i>` is inserted before the extension of the flattened name (the
`splitext` is taken on the flattened string), with the smallest counter
`i ≥ 1` that makes the name fresh; the result is never a name already used,
so the destination names of one run are pairwise distinct. -/
theorem claim5_uniqueNames (rel_path : List Char) (used : List (List Char))
    (rels : List (List Char)) :
    (unique_flat_name rel_path used ∉ used) ∧
    (flattenRel rel_path ∉ used → unique_flat_name rel_path used = flattenRel rel_path) ∧
    (flattenRel rel_path ∈ used → ∃ i, 1 ≤ i ∧
      unique_flat_name rel_path used =
        (splitextFn (flattenRel rel_path)).1 ++ ['_', '_'] ++ natStr i ++
          (splitextFn (flattenRel rel_path)).2 ∧
      (∀ e, 1 ≤ e → e < i →
        (splitextFn (flattenRel rel_path)).1 ++ ['_', '_'] ++ natStr e ++
          (splitextFn (flattenRel rel_path)).2 ∈ used)) ∧
    ((destNames rels used).Nodup) := by
  refine ⟨unique_flat_name_not_mem _ _, fun hb => by simp [unique_flat_name, hb],
    fun hb => ?_, destNames_nodup _ _⟩
  obtain ⟨d, hd1, hd2, hd3⟩ :=
    exists_free_flatCand (splitextFn (flattenRel rel_path)).1
      (splitextFn (flattenRel rel_path)).2 used
  obtain ⟨d', hd'1, heq, hnot, hmin⟩ :=
    uniqueFlatGo_spec (splitextFn (flattenRel rel_path)).1
      (splitextFn (flattenRel rel_path)).2 used (used.length + 1) 1
      ⟨d, hd1, by omega, hd3⟩
  refine ⟨d', hd'1, ?_, hmin⟩
  simp only [unique_flat_name, if_pos hb]
  exact heq

/-- Witness for C5: flattening `a/b.txt` against a run that already assigned
`a__b.txt` inserts the counter before `.txt`. -/
theorem claim5_witness :
    unique_flat_name ['a', '/', 'b', '.', 't', 'x', 't']
      [['a', '_', '_', 'b', '.', 't', 'x', 't']] ∉
      [['a', '_', '_', 'b', '.', 't', 'x', 't']] ∧
    unique_flat_name ['a', '/', 'b', '.', 't', 'x', 't'] [] =
      flattenRel ['a', '/', 'b', '.', 't', 'x', 't'] :=
  ⟨(claim5_uniqueNames ['a', '/', 'b', '.', 't', 'x', 't']
      [['a', '_', '_', 'b', '.', 't', 'x', 't']] []).1,
    (claim5_uniqueNames ['a', '/', 'b', '.', 't', 'x', 't'] [] []).2.1 (by decide)⟩

/-! ## Claim C7 (confirmed): the walk prunes the output directory -/

theorem isPre_append_self (p t : List Char) : isPre p (p ++ t) = true := by
  simp [isPre, List.take_left]

theorem isPre_of_append (p q x : List Char) (h : isPre (p ++ q) x = true) :
    isPre p x = true := by
  simp only [isPre, decide_eq_true_eq] at h ⊢
  have h1 : x.take p.length = (x.take (p ++ q).length).take p.length := by
    rw [List.take_take]
    congr 1
    simp only [List.length_append]
    omega
  rw [h1, h, List.take_append_of_le_length (le_refl _), List.take_length]

theorem mem_filesOf (x : List Char) (es : List Entry) (h : x ∈ filesOf es) :
    Entry.file x ∈ es := by
  simp only [filesOf, List.mem_filterMap] at h
  obtain ⟨e, he, hfe⟩ := h
  match e with
  | .file n => simp at hfe; exact hfe ▸ he
  | .dir n ch => simp at hfe
  | .special n => simp at hfe

theorem validGo_nameOk (fuel : Nat) (es : List Entry) (h : validGo (fuel + 1) es = true)
    (e : Entry) (he : e ∈ es) : nameOk (entryName e) = true := by
  simp only [validGo, Bool.and_eq_true, List.all_eq_true] at h
  exact h.1 e he

theorem validGo_child (fuel : Nat) (es : List Entry) (h : validGo (fuel + 1) es = true)
    (n : List Char) (ch : List Entry) (he : Entry.dir n ch ∈ es) :
    validGo fuel ch = true := by
  simp only [validGo, Bool.and_eq_true, List.all_eq_true] at h
  have := h.2 (Entry.dir n ch) he
  simpa using this

theorem iterGo_subset_allGo (fuel : Nat) :
    ∀ pre es x, x ∈ iterGo fuel pre es → x ∈ allGo fuel pre es := by
  induction fuel with
  | zero => intro pre es x hx; simp [iterGo] at hx
  | succ fuel ih =>
    intro pre es x hx
    simp only [iterGo, List.mem_append, List.mem_flatMap] at hx
    simp only [allGo, List.mem_append, List.mem_flatMap]
    rcases hx with hx | ⟨e, he, hxe⟩
    · exact Or.inl hx
    · refine Or.inr ⟨e, he, ?_⟩
      match e with
      | .file n => simp at hxe
      | .special n => simp at hxe
      | .dir n ch =>
        dsimp only at hxe ⊢
        by_cases hp : relJoin pre n = ['u', 'z', 'b']
        · rw [if_pos hp] at hxe; simp at hxe
        · rw [if_neg hp] at hxe
          exact ih _ _ _ hxe

theorem iterGo_pre_isPre (fuel : Nat) :
    ∀ pre es x, pre ≠ [] → x ∈ iterGo fuel pre es → isPre (pre ++ ['/']) x = true := by
  induction fuel with
  | zero => intro pre es x _ hx; simp [iterGo] at hx
  | succ fuel ih =>
    intro pre es x hpre hx
    simp only [iterGo, List.mem_append, List.mem_flatMap, List.mem_map] at hx
    rcases hx with ⟨n, _, hn⟩ | ⟨e, _, hxe⟩
    · subst hn
      simp only [relJoin, if_neg hpre]
      have : pre ++ '/' :: n = (pre ++ ['/']) ++ n := by simp
      rw [this]
      exact isPre_append_self _ _
    · match e with
      | .file n => simp at hxe
      | .special n => simp at hxe
      | .dir n ch =>
        dsimp only at hxe
        by_cases hp : relJoin pre n = ['u', 'z', 'b']
        · rw [if_pos hp] at hxe; simp at hxe
        · rw [if_neg hp] at hxe
          have hjoin : relJoin pre n ≠ [] := by
            simp only [relJoin, if_neg hpre]
            simp
          have hpx := ih (relJoin pre n) ch x hjoin hxe
          have hsplit : relJoin pre n ++ ['/'] = (pre ++ ['/']) ++ (n ++ ['/']) := by
            simp [relJoin, if_neg hpre]
          rw [hsplit] at hpx
          exact isPre_of_append _ _ _ hpx

theorem uzbPre_false_of_noSlash (x : List Char) (hne : x ≠ []) (hns : '/' ∉ x) :
    isPre ['u', 'z', 'b', '/'] x = false := by
  by_contra h
  rw [Bool.not_eq_false] at h
  simp only [isPre, decide_eq_true_eq, List.length_cons, List.length_nil] at h
  norm_num at h
  have : '/' ∈ x.take 4 := by rw [h]; decide
  exact hns (List.mem_of_mem_take this)

theorem iterGo_no_uzb (fuel : Nat) :
    ∀ es x, validGo fuel es = true → x ∈ iterGo fuel [] es →
    isPre ['u', 'z', 'b', '/'] x = false := by
  induction fuel with
  | zero => intro es x _ hx; simp [iterGo] at hx
  | succ fuel _ =>
    intro es x hv hx
    simp only [iterGo, List.mem_append, List.mem_flatMap, List.mem_map] at hx
    rcases hx with ⟨n, hn, hrel⟩ | ⟨e, he, hxe⟩
    · subst hrel
      have hok := validGo_nameOk fuel es hv (Entry.file n) (mem_filesOf n es hn)
      simp only [entryName, nameOk, Bool.and_eq_true, decide_eq_true_eq] at hok
      simp only [relJoin, if_pos rfl]
      exact uzbPre_false_of_noSlash n hok.1 hok.2
    · match e with
      | .file n => simp at hxe
      | .special n => simp at hxe
      | .dir n ch =>
        dsimp only at hxe
        by_cases hp : relJoin [] n = ['u', 'z', 'b']
        · rw [if_pos hp] at hxe; simp at hxe
        · rw [if_neg hp] at hxe
          have hok := validGo_nameOk fuel es hv (Entry.dir n ch) he
          simp only [entryName, nameOk, Bool.and_eq_true, decide_eq_true_eq] at hok
          have hjn : relJoin [] n = n := by simp [relJoin]
          rw [hjn] at hxe hp
          have hpx := iterGo_pre_isPre fuel n ch x hok.1 hxe
          -- x starts with `n ++ "/"`; show it cannot also start with "uzb/"
          by_contra hcon
          rw [Bool.not_eq_false] at hcon
          simp only [isPre, decide_eq_true_eq] at hpx hcon
          simp only [List.length_append, List.length_cons, List.length_nil] at hpx hcon
          norm_num at hpx hcon
          rcases lt_trichotomy n.length 3 with h3 | h3 | h3
          · -- short name: the separator would have to be a letter of "uzb"
            have htk : n ++ ['/'] = List.take (n.length + 1) ['u', 'z', 'b', '/'] := by
              have : List.take (n.length + 1) x =
                  List.take (n.length + 1) (List.take 4 x) := by
                rw [List.take_take]
                congr 1
                omega
              rw [this, hcon] at hpx
              simpa using hpx.symm
            have hmem : '/' ∈ List.take (n.length + 1) ['u', 'z', 'b', '/'] := by
              rw [← htk]
              simp
            have hsub : List.take (n.length + 1) ['u', 'z', 'b', '/'] =
                List.take (n.length + 1) (List.take 3 ['u', 'z', 'b', '/']) := by
              rw [List.take_take]
              congr 1
              omega
            rw [hsub] at hmem
            have : '/' ∈ List.take 3 ['u', 'z', 'b', '/'] := List.mem_of_mem_take hmem
            simp at this
          · -- name of length 3: it would be exactly "uzb", which is pruned
            have htk : List.take 4 x = n ++ ['/'] := by
              have h4 : n.length + 1 = 4 := by omega
              rw [← h4]
              exact hpx
            rw [hcon] at htk
            have h2 : n ++ ['/'] = ['u', 'z', 'b'] ++ ['/'] := by rw [← htk]; rfl
            exact hp (List.append_cancel_right h2)
          · -- long name: "uzb/" would sit inside the separator-free name
            have htk : List.take 4 x = List.take 4 n := by
              have h1 : List.take 4 x = List.take 4 (List.take (n.length + 1) x) := by
                rw [List.take_take]
                congr 1
                omega
              rw [h1, hpx, List.take_append_of_le_length (by omega)]
            have hmem : '/' ∈ List.take 4 n := by
              rw [← htk, hcon]
              simp
            exact hok.2 (List.mem_of_mem_take hmem)

/-- Claim C7: on a well-formed tree the pruned walk yields only regular files
of the tree, and never a candidate whose root-relative path starts with
`uzb/` — the `<root>/uzb` subtree is pruned before descent. -/
theorem claim7_walkPruned (es : List Entry) (hv : validTree es = true) :
    ∀ rel ∈ iter_files es,
      rel ∈ allFiles es ∧ isPre ['u', 'z', 'b', '/'] rel = false := by
  intro rel hrel
  exact ⟨iterGo_subset_allGo (entsSize es) [] es rel hrel,
    iterGo_no_uzb (entsSize es) es rel hv hrel⟩

/-- Witness for C7. -/
theorem claim7_witness :
    ['a', '.', 't', 'x', 't'] ∈
      allFiles [Entry.file ['a', '.', 't', 'x', 't'],
        Entry.dir ['u', 'z', 'b'] [Entry.file ['x']]] ∧
    isPre ['u', 'z', 'b', '/'] ['a', '.', 't', 'x', 't'] = false :=
  claim7_walkPruned
    [Entry.file ['a', '.', 't', 'x', 't'], Entry.dir ['u', 'z', 'b'] [Entry.file ['x']]]
    (by decide) ['a', '.', 't', 'x', 't'] (by decide)

/-! ## Fold and grid utilities for the find_longest_match analysis -/

theorem sortedLt_ext (l1 : List Nat) :
    ∀ l2 : List Nat, l1.Pairwise (· < ·) → l2.Pairwise (· < ·) →
    (∀ x, x ∈ l1 ↔ x ∈ l2) → l1 = l2 := by
  induction l1 with
  | nil =>
    intro l2 _ _ hm
    cases l2 with
    | nil => rfl
    | cons y t2 => exact absurd ((hm y).mpr (List.mem_cons_self _ _)) (by simp)
  | cons x t1 ih =>
    intro l2 h1 h2 hm
    cases l2 with
    | nil => exact absurd ((hm x).mp (List.mem_cons_self _ _)) (by simp)
    | cons y t2 =>
      rw [List.pairwise_cons] at h1 h2
      have hxy : x = y := by
        rcases List.mem_cons.mp ((hm x).mp (List.mem_cons_self _ _)) with h | h
        · exact h
        · rcases List.mem_cons.mp ((hm y).mpr (List.mem_cons_self _ _)) with h' | h'
          · exact h'.symm
          · exact absurd (h1.1 y h') (by have := h2.1 x h; omega)
      subst hxy
      have ht : t1 = t2 := by
        refine ih t2 h1.2 h2.2 (fun z => ⟨fun hz => ?_, fun hz => ?_⟩)
        · have hzx : z ≠ x := by have := h1.1 z hz; omega
          rcases List.mem_cons.mp ((hm z).mp (List.mem_cons_of_mem _ hz)) with h | h
          · exact absurd h hzx
          · exact h
        · have hzx : z ≠ x := by have := h2.1 z hz; omega
          rcases List.mem_cons.mp ((hm z).mpr (List.mem_cons_of_mem _ hz)) with h | h
          · exact absurd h hzx
          · exact h
      rw [ht]

theorem foldl_filter_noop {α β : Type} (f : β → α → β) (χ : α → Bool) :
    ∀ (L : List α) (s : β), (∀ s' x, x ∈ L → χ x = false → f s' x = s') →
    L.foldl f s = (L.filter χ).foldl f s := by
  intro L
  induction L with
  | nil => intro s _; rfl
  | cons x t ih =>
    intro s hno
    by_cases hx : χ x = true
    · rw [List.foldl_cons, List.filter_cons_of_pos hx, List.foldl_cons]
      exact ih _ (fun s' z hz => hno s' z (List.mem_cons_of_mem _ hz))
    · rw [Bool.not_eq_true] at hx
      rw [List.foldl_cons, hno s x (List.mem_cons_self _ _) hx,
        List.filter_cons_of_neg (by simp [hx])]
      exact ih _ (fun s' z hz => hno s' z (List.mem_cons_of_mem _ hz))

theorem foldl_flatMapEq {α β γ : Type} (g : α → List β) (f : γ → β → γ) :
    ∀ (L : List α) (s : γ),
    (L.flatMap g).foldl f s = L.foldl (fun s' a => (g a).foldl f s') s := by
  intro L
  induction L with
  | nil => intro s; rfl
  | cons x t ih =>
    intro s
    rw [List.flatMap_cons, List.foldl_append, List.foldl_cons, ih]

theorem mem_gridCells (alo ahi blo bhi : Nat) (c : Nat × Nat) :
    c ∈ gridCells alo ahi blo bhi ↔
      alo ≤ c.1 ∧ c.1 < ahi ∧ blo ≤ c.2 ∧ c.2 < bhi := by
  unfold gridCells
  rw [List.mem_flatMap]
  constructor
  · rintro ⟨i, hi, hc⟩
    rw [List.mem_map] at hc
    obtain ⟨j, hj, hcj⟩ := hc
    rw [List.mem_range'_1] at hi hj
    subst hcj
    refine ⟨hi.1, by omega, hj.1, by omega⟩
  · rintro ⟨h1, h2, h3, h4⟩
    refine ⟨c.1, ?_, ?_⟩
    · rw [List.mem_range'_1]; omega
    · rw [List.mem_map]
      exact ⟨c.2, by rw [List.mem_range'_1]; omega, by rfl⟩

theorem pairwise_lexLt_gridCells (alo ahi blo bhi : Nat) :
    (gridCells alo ahi blo bhi).Pairwise lexLt := by
  unfold gridCells
  have hrows := List.pairwise_lt_range' alo (ahi - alo) 1
  revert hrows
  generalize List.range' alo (ahi - alo) = L
  intro hrows
  induction L with
  | nil => simp
  | cons i t ih =>
    rw [List.pairwise_cons] at hrows
    rw [List.flatMap_cons, List.pairwise_append]
    refine ⟨?_, ih hrows.2, ?_⟩
    · rw [List.pairwise_map]
      exact (List.pairwise_lt_range' blo (bhi - blo) 1).imp
        (fun h => Or.inr ⟨rfl, h⟩)
    · intro x hx y hy
      rw [List.mem_map] at hx
      obtain ⟨j, _, hj⟩ := hx
      rw [List.mem_flatMap] at hy
      obtain ⟨i', hi', hy'⟩ := hy
      rw [List.mem_map] at hy'
      obtain ⟨j', _, hj'⟩ := hy'
      subst hj hj'
      exact Or.inl (hrows.1 i' hi')

theorem pairwise_decomp {α : Type} (R : α → α → Prop) (L1 : List α) (c : α) (L2 : List α)
    (h : (L1 ++ c :: L2).Pairwise R) :
    (∀ x ∈ L1, R x c) ∧ (∀ x ∈ L2, R c x) := by
  rw [List.pairwise_append, List.pairwise_cons] at h
  exact ⟨fun x hx => h.2.2 x hx c (List.mem_cons_self _ _), h.2.1.1⟩

theorem foldBest_char (f : Nat × Nat → Nat) (p : Nat × Nat → Nat × Nat × Nat)
    (hp : ∀ c, (p c).2.2 = f c) :
    ∀ (L : List (Nat × Nat)) (init : Nat × Nat × Nat),
    (L.foldl (fun best c => if best.2.2 < f c then p c else best) init = init ∧
      ∀ c ∈ L, f c ≤ init.2.2) ∨
    (∃ L1 c L2, L = L1 ++ c :: L2 ∧
      L.foldl (fun best c => if best.2.2 < f c then p c else best) init = p c ∧
      init.2.2 < f c ∧ (∀ x ∈ L1, f x < f c) ∧ (∀ x ∈ L2, f x ≤ f c)) := by
  intro L
  induction L with
  | nil => intro init; exact Or.inl ⟨rfl, by simp⟩
  | cons c0 t ih =>
    intro init
    by_cases h0 : init.2.2 < f c0
    · rw [List.foldl_cons, if_pos h0]
      rcases ih (p c0) with ⟨heq, hall⟩ | ⟨L1, c, L2, hL, heq, hgt, hL1, hL2⟩
      · refine Or.inr ⟨[], c0, t, by simp, heq, h0, by simp, ?_⟩
        intro x hx
        have := hall x hx
        rwa [hp c0] at this
      · refine Or.inr ⟨c0 :: L1, c, L2, by rw [hL, List.cons_append], heq, ?_, ?_, hL2⟩
        · rw [hp c0] at hgt
          omega
        · intro x hx
          rw [hp c0] at hgt
          rcases List.mem_cons.mp hx with hx0 | hx1
          · rw [hx0]; exact hgt
          · exact hL1 x hx1
    · rw [List.foldl_cons, if_neg h0]
      push_neg at h0
      rcases ih init with ⟨heq, hall⟩ | ⟨L1, c, L2, hL, heq, hgt, hL1, hL2⟩
      · refine Or.inl ⟨heq, fun x hx => ?_⟩
        rcases List.mem_cons.mp hx with hx0 | hx1
        · subst hx0; exact h0
        · exact hall x hx1
      · refine Or.inr ⟨c0 :: L1, c, L2, by rw [hL, List.cons_append], heq, hgt, ?_, hL2⟩
        intro x hx
        rcases List.mem_cons.mp hx with hx0 | hx1
        · rw [hx0]; omega
        · exact hL1 x hx1

/-! ## The j2len dynamic program computes the windowed chain lengths -/

theorem get?_eq_getD (l : List Char) (i : Nat) (h : i < l.length) :
    l.get? i = some (l.getD i 'a') := by
  rw [List.getD_eq_get?]
  cases hg : l.get? i
  · rw [List.get?_eq_none] at hg; omega
  · simp

theorem mem_b2j (b : List Char) (c : Char) (j : Nat) :
    j ∈ b2j b c ↔ b.get? j = some c ∧ isPopularB b c = false := by
  unfold b2j
  by_cases hp : isPopularB b c = true
  · simp [hp]
  · rw [Bool.not_eq_true] at hp
    rw [if_neg (by simp [hp])]
    rw [List.mem_filter, List.mem_range]
    constructor
    · rintro ⟨_, hbeq⟩
      exact ⟨by simpa using hbeq, hp⟩
    · rintro ⟨hget, _⟩
      have hj : j < b.length := by
        by_contra hcon
        rw [List.get?_eq_none.mpr (by omega)] at hget
        exact Option.noConfusion hget
      exact ⟨hj, by simpa using hget⟩

theorem okPairP_iff (a b : List Char) (i j : Nat) :
    okPairP a b i j = true ↔
      ∃ c, a.get? i = some c ∧ b.get? j = some c ∧ isPopularB b c = false := by
  unfold okPairP
  cases hai : a.get? i with
  | none => simp
  | some x =>
    cases hbj : b.get? j with
    | none => simp
    | some y =>
      simp only [Bool.and_eq_true, beq_iff_eq, Bool.not_eq_true', Option.some.injEq]
      constructor
      · rintro ⟨rfl, hpop⟩
        exact ⟨x, rfl, rfl, hpop⟩
      · rintro ⟨c, rfl, hy, hpop⟩
        exact ⟨hy.symm, hy ▸ hpop⟩

theorem mem_b2j_iff_okPairP (a b : List Char) (i j : Nat) (hi : i < a.length) :
    (j ∈ b2j b (a.getD i 'a')) ↔ okPairP a b i j = true := by
  have hga := get?_eq_getD a i hi
  rw [mem_b2j, okPairP_iff]
  constructor
  · rintro ⟨hbj, hpop⟩
    exact ⟨a.getD i 'a', hga, hbj, hpop⟩
  · rintro ⟨c, hai, hbj, hpop⟩
    rw [hga, Option.some.injEq] at hai
    rw [← hai] at hbj hpop
    exact ⟨hbj, hpop⟩

theorem wsuffP_eq (a b : List Char) (alo blo i j : Nat) :
    wsuffP a b alo blo i j =
      if okPairP a b i j = true ∧ alo ≤ i ∧ blo ≤ j then
        (if alo < i ∧ blo < j then wsuffP a b alo blo (i - 1) (j - 1) else 0) + 1
      else 0 := by
  rw [wsuffP]
  simp only [dite_eq_ite]

theorem wsuffP_zero (a b : List Char) (alo blo i j : Nat)
    (h : ¬(okPairP a b i j = true ∧ alo ≤ i ∧ blo ≤ j)) :
    wsuffP a b alo blo i j = 0 := by
  rw [wsuffP_eq, if_neg h]

theorem wsuffP_dp (a b : List Char) (alo blo bhi i j : Nat)
    (hok : okPairP a b i j = true) (hai : alo ≤ i) (hbj : blo ≤ j) (hjb : j < bhi) :
    wsuffP a b alo blo i j =
      (if j = 0 then 0 else dpRow a b alo blo bhi i (j - 1)) + 1 := by
  rw [wsuffP_eq, if_pos ⟨hok, hai, hbj⟩]
  congr 1
  by_cases hj0 : j = 0
  · subst hj0
    rw [if_pos rfl, if_neg (show ¬(alo < i ∧ blo < 0) by omega)]
  · rw [if_neg hj0]
    unfold dpRow
    by_cases hcond : alo < i ∧ blo < j
    · rw [if_pos hcond, if_pos (show blo ≤ j - 1 ∧ j - 1 < bhi ∧ alo < i by omega)]
    · rw [if_neg hcond, if_neg (show ¬(blo ≤ j - 1 ∧ j - 1 < bhi ∧ alo < i) by omega)]

theorem wsuffP_block (a b : List Char) (alo blo : Nat) :
    ∀ i j, 0 < wsuffP a b alo blo i j →
      alo + wsuffP a b alo blo i j ≤ i + 1 ∧
      blo + wsuffP a b alo blo i j ≤ j + 1 ∧
      ∀ t < wsuffP a b alo blo i j,
        okPairP a b (i + 1 - wsuffP a b alo blo i j + t)
          (j + 1 - wsuffP a b alo blo i j + t) = true := by
  intro i
  induction i using Nat.strong_induction_on with
  | _ i ih =>
    intro j hpos
    rw [wsuffP_eq] at hpos ⊢
    by_cases hc : okPairP a b i j = true ∧ alo ≤ i ∧ blo ≤ j
    · rw [if_pos hc] at hpos ⊢
      by_cases hc2 : alo < i ∧ blo < j
      · rw [if_pos hc2] at hpos ⊢
        by_cases hk0 : wsuffP a b alo blo (i - 1) (j - 1) = 0
        · rw [hk0]
          refine ⟨by omega, by omega, fun t ht => ?_⟩
          have ht0 : t = 0 := by omega
          subst ht0
          simpa using hc.1
        · have hrec := ih (i - 1) (by omega) (j - 1) (by omega)
          set k' := wsuffP a b alo blo (i - 1) (j - 1) with hk'
          obtain ⟨hr1, hr2, hr3⟩ := hrec
          refine ⟨by omega, by omega, fun t ht => ?_⟩
          by_cases htk : t < k'
          · have h3 := hr3 t htk
            have hi1 : i - 1 + 1 - k' + t = i + 1 - (k' + 1) + t := by omega
            have hj1 : j - 1 + 1 - k' + t = j + 1 - (k' + 1) + t := by omega
            rw [hi1, hj1] at h3
            exact h3
          · have ht0 : t = k' := by omega
            subst ht0
            have hi1 : i + 1 - (k' + 1) + k' = i := by omega
            have hj1 : j + 1 - (k' + 1) + k' = j := by omega
            rw [hi1, hj1]
            exact hc.1
      · rw [if_neg hc2] at hpos ⊢
        refine ⟨by omega, by omega, fun t ht => ?_⟩
        have ht0 : t = 0 := by omega
        subst ht0
        simpa using hc.1
    · rw [if_neg hc] at hpos
      omega

theorem flmFold_char (a b : List Char) (alo blo bhi i : Nat) :
    ∀ (js : List Nat) (g : Nat → Nat) (best : Nat × Nat × Nat),
    (∀ j ∈ js, okPairP a b i j = true ∧ blo ≤ j ∧ j < bhi) →
    alo ≤ i →
    js.foldl (flmStepJ (dpRow a b alo blo bhi i) i) (g, best) =
      ((fun j' => if j' ∈ js then wsuffP a b alo blo i j' else g j'),
        js.foldl (fun bst j => bestStepE a b alo blo bst (i, j)) best) := by
  intro js
  induction js with
  | nil =>
    intro g best _ _
    simp
  | cons j t ih =>
    intro g best hmem hai
    obtain ⟨hok, hbj, hjb⟩ := hmem j (List.mem_cons_self _ _)
    have hk : (if j = 0 then 0 else dpRow a b alo blo bhi i (j - 1)) + 1 =
        wsuffP a b alo blo i j :=
      (wsuffP_dp a b alo blo bhi i j hok hai hbj hjb).symm
    have hstep : flmStepJ (dpRow a b alo blo bhi i) i (g, best) j =
        ((fun j' => if j' = j then wsuffP a b alo blo i j' else g j'),
          bestStepE a b alo blo best (i, j)) := by
      unfold flmStepJ bestStepE
      dsimp only
      rw [hk]
      have hnj : (fun j' => if j' = j then wsuffP a b alo blo i j else g j') =
          (fun j' => if j' = j then wsuffP a b alo blo i j' else g j') := by
        funext j'
        by_cases hj' : j' = j
        · rw [if_pos hj', if_pos hj', hj']
        · rw [if_neg hj', if_neg hj']
      by_cases hcmp : best.2.2 < wsuffP a b alo blo i j
      · rw [if_pos hcmp, if_pos hcmp, hnj]
      · rw [if_neg hcmp, if_neg hcmp, hnj]
    rw [List.foldl_cons, List.foldl_cons, hstep,
      ih _ _ (fun z hz => hmem z (List.mem_cons_of_mem _ hz)) hai]
    congr 1
    funext j'
    by_cases hjt : j' ∈ t
    · rw [if_pos hjt, if_pos (List.mem_cons_of_mem _ hjt)]
    · rw [if_neg hjt]
      by_cases hjj : j' = j
      · rw [if_pos hjj, if_pos (by rw [hjj]; exact List.mem_cons_self _ _)]
      · rw [if_neg hjj, if_neg (by simp [hjj, hjt])]

theorem dpRow_start (a b : List Char) (alo blo bhi : Nat) :
    (fun _ => 0 : Nat → Nat) = dpRow a b alo blo bhi alo := by
  funext j
  unfold dpRow
  rw [if_neg (by omega)]

theorem flmInner_char (a b : List Char) (alo blo bhi i : Nat)
    (hai : alo ≤ i) (hia : i < a.length) (best : Nat × Nat × Nat) :
    flmInner a b blo bhi i (dpRow a b alo blo bhi i) best =
      (dpRow a b alo blo bhi (i + 1),
        (List.range' blo (bhi - blo)).foldl
          (fun bst j => bestStepE a b alo blo bst (i, j)) best) := by
  unfold flmInner
  have hjs : (b2j b (a.getD i 'a')).filter
        (fun j => decide (blo ≤ j) && decide (j < bhi)) =
      (List.range' blo (bhi - blo)).filter (fun j => okPairP a b i j) := by
    apply sortedLt_ext
    · apply List.Pairwise.filter
      unfold b2j
      split
      · exact List.Pairwise.nil
      · exact (List.pairwise_lt_range b.length).filter _
    · exact (List.pairwise_lt_range' blo (bhi - blo) 1).filter _
    · intro x
      rw [List.mem_filter, List.mem_filter, List.mem_range'_1,
        mem_b2j_iff_okPairP a b i x hia]
      simp only [Bool.and_eq_true, decide_eq_true_eq]
      constructor
      · rintro ⟨hok, hblo, hbhi⟩
        exact ⟨⟨hblo, by omega⟩, hok⟩
      · rintro ⟨⟨hblo, hbhi⟩, hok⟩
        exact ⟨hok, hblo, by omega⟩
  rw [hjs]
  have hmem : ∀ j ∈ (List.range' blo (bhi - blo)).filter (fun j => okPairP a b i j),
      okPairP a b i j = true ∧ blo ≤ j ∧ j < bhi := by
    intro j hj
    rw [List.mem_filter, List.mem_range'_1] at hj
    exact ⟨hj.2, hj.1.1, by omega⟩
  rw [flmFold_char a b alo blo bhi i _ _ best hmem hai]
  have hnoop : ∀ (bst : Nat × Nat × Nat) (j : Nat), j ∈ List.range' blo (bhi - blo) →
      okPairP a b i j = false → bestStepE a b alo blo bst (i, j) = bst := by
    intro bst j _ hok
    unfold bestStepE
    dsimp only
    rw [wsuffP_zero a b alo blo i j (by simp [hok])]
    rw [if_neg (by omega)]
  congr 1
  · funext j'
    unfold dpRow
    by_cases hjm : j' ∈ (List.range' blo (bhi - blo)).filter (fun j => okPairP a b i j)
    · rw [if_pos hjm]
      obtain ⟨hok, hblo, hbhi⟩ := hmem j' hjm
      rw [if_pos ⟨hblo, hbhi, by omega⟩]
      rfl
    · rw [if_neg hjm]
      by_cases hw : blo ≤ j' ∧ j' < bhi ∧ alo < i + 1
      · rw [if_pos hw]
        have hok : okPairP a b i j' = false := by
          by_contra hcon
          rw [Bool.not_eq_false] at hcon
          exact hjm (by
            rw [List.mem_filter, List.mem_range'_1]
            exact ⟨⟨hw.1, by omega⟩, hcon⟩)
        have h0 : wsuffP a b alo blo i j' = 0 :=
          wsuffP_zero a b alo blo i j' (by simp [hok])
        exact h0.symm
      · rw [if_neg hw]
  · exact (foldl_filter_noop _ (fun j => okPairP a b i j) _ best
      (fun bst j hj hok => hnoop bst j hj hok)).symm

theorem flmLoop_rows (a b : List Char) (alo blo bhi : Nat) :
    ∀ (cnt i0 : Nat) (best : Nat × Nat × Nat),
    alo ≤ i0 → i0 + cnt ≤ a.length →
    ((List.range' i0 cnt).foldl (fun st i => flmInner a b blo bhi i st.1 st.2)
      (dpRow a b alo blo bhi i0, best)).2 =
    (List.range' i0 cnt).foldl
      (fun bst i => (List.range' blo (bhi - blo)).foldl
        (fun bst j => bestStepE a b alo blo bst (i, j)) bst) best := by
  intro cnt
  induction cnt with
  | zero => intro i0 best _ _; rfl
  | succ cnt ih =>
    intro i0 best h1 h2
    rw [List.range'_succ, List.foldl_cons, List.foldl_cons]
    have hstep : flmInner a b blo bhi i0 (dpRow a b alo blo bhi i0, best).1
        (dpRow a b alo blo bhi i0, best).2 =
        (dpRow a b alo blo bhi (i0 + 1),
          (List.range' blo (bhi - blo)).foldl
            (fun bst j => bestStepE a b alo blo bst (i0, j)) best) :=
      flmInner_char a b alo blo bhi i0 h1 (by omega) best
    rw [hstep]
    exact ih (i0 + 1) _ (by omega) (by omega)

theorem flmLoop_eq_grid (a b : List Char) (alo ahi blo bhi : Nat) (ha : ahi ≤ a.length) :
    flmLoop a b alo ahi blo bhi =
      (gridCells alo ahi blo bhi).foldl (bestStepE a b alo blo) (alo, blo, 0) := by
  unfold flmLoop gridCells
  rw [foldl_flatMapEq]
  rw [List.foldl_ext
    (fun s i => ((List.range' blo (bhi - blo)).map (fun j => (i, j))).foldl
      (bestStepE a b alo blo) s)
    (fun s i => (List.range' blo (bhi - blo)).foldl
      (fun bst j => bestStepE a b alo blo bst (i, j)) s)
    (alo, blo, 0)
    (fun s i _ => List.foldl_map _ _ _ _)]
  by_cases hcase : alo ≤ ahi
  · have h := flmLoop_rows a b alo blo bhi (ahi - alo) alo (alo, blo, 0)
      (le_refl _) (by omega)
    rw [← dpRow_start a b alo blo bhi] at h
    exact h
  · have h0 : ahi - alo = 0 := by omega
    rw [h0]
    rfl

/-! ## Every found match is a well-formed block; the ratio lies in [0, 1] -/

theorem okBlock_mk (a b : List Char) (alo ahi blo bhi i j k : Nat) :
    okBlock a b alo ahi blo bhi (i, j, k) ↔
      alo ≤ i ∧ blo ≤ j ∧ i + k ≤ ahi ∧ j + k ≤ bhi ∧
        ∀ t < k, ∃ c, a.get? (i + t) = some c ∧ b.get? (j + t) = some c := Iff.rfl

theorem grid_fold_okBlock (a b : List Char) (alo ahi blo bhi : Nat)
    (ha : ahi ≤ a.length) (hb : bhi ≤ b.length) (hwa : alo ≤ ahi) (hwb : blo ≤ bhi) :
    okBlock a b alo ahi blo bhi
      ((gridCells alo ahi blo bhi).foldl (bestStepE a b alo blo) (alo, blo, 0)) := by
  have hrw : (gridCells alo ahi blo bhi).foldl (bestStepE a b alo blo) (alo, blo, 0) =
      (gridCells alo ahi blo bhi).foldl
        (fun best c => if best.2.2 < wsuffP a b alo blo c.1 c.2 then
          (c.1 + 1 - wsuffP a b alo blo c.1 c.2,
            c.2 + 1 - wsuffP a b alo blo c.1 c.2,
            wsuffP a b alo blo c.1 c.2) else best) (alo, blo, 0) :=
    List.foldl_ext _ _ _ (fun s c _ => rfl)
  rw [hrw]
  rcases foldBest_char (fun c => wsuffP a b alo blo c.1 c.2)
      (fun c => (c.1 + 1 - wsuffP a b alo blo c.1 c.2,
        c.2 + 1 - wsuffP a b alo blo c.1 c.2, wsuffP a b alo blo c.1 c.2))
      (fun c => rfl) (gridCells alo ahi blo bhi) (alo, blo, 0) with
    ⟨heq, _⟩ | ⟨L1, c, L2, hL, heq, hgt, _, _⟩
  · rw [heq]
    unfold okBlock
    dsimp only
    exact ⟨le_refl _, le_refl _, by omega, by omega, fun t ht => by omega⟩
  · rw [heq]
    unfold okBlock
    dsimp only
    have hcmem : c ∈ gridCells alo ahi blo bhi := by
      rw [hL]
      exact List.mem_append_right _ (List.mem_cons_self _ _)
    rw [mem_gridCells] at hcmem
    obtain ⟨hc1, hc2, hc3, hc4⟩ := hcmem
    have hpos : 0 < wsuffP a b alo blo c.1 c.2 := by omega
    obtain ⟨hb1, hb2, hb3⟩ := wsuffP_block a b alo blo c.1 c.2 hpos
    refine ⟨by omega, by omega, by omega, by omega, fun t ht => ?_⟩
    have hok := hb3 t (by omega)
    rw [okPairP_iff] at hok
    obtain ⟨ch, hca, hcb, _⟩ := hok
    exact ⟨ch, hca, hcb⟩

theorem extBack_okBlock (a b : List Char) (alo ahi blo bhi : Nat) (p : Char → Bool)
    (ha : ahi ≤ a.length) (hb : bhi ≤ b.length) :
    ∀ (fuel i j k : Nat), okBlock a b alo ahi blo bhi (i, j, k) →
    okBlock a b alo ahi blo bhi (extBack a b alo blo p fuel i j k) := by
  intro fuel
  induction fuel with
  | zero => intro i j k h; exact h
  | succ fuel ih =>
    intro i j k h
    rw [extBack]
    by_cases hg : alo < i ∧ blo < j ∧ p (b.getD (j - 1) 'a') = true ∧
        a.getD (i - 1) 'a' = b.getD (j - 1) 'a'
    · rw [if_pos hg]
      rw [okBlock_mk] at h
      obtain ⟨h1, h2, h3, h4, h5⟩ := h
      refine ih (i - 1) (j - 1) (k + 1) ((okBlock_mk a b alo ahi blo bhi _ _ _).mpr
        ⟨by omega, by omega, by omega, by omega, fun t ht => ?_⟩)
      rcases Nat.eq_zero_or_pos t with ht0 | htpos
      · subst ht0
        have hia : i - 1 < a.length := by omega
        have hjb : j - 1 < b.length := by omega
        refine ⟨b.getD (j - 1) 'a', ?_, ?_⟩
        · rw [Nat.add_zero, get?_eq_getD a (i - 1) hia, hg.2.2.2]
        · rw [Nat.add_zero, get?_eq_getD b (j - 1) hjb]
      · have := h5 (t - 1) (by omega)
        obtain ⟨c, hca, hcb⟩ := this
        refine ⟨c, ?_, ?_⟩
        · rw [show i - 1 + t = i + (t - 1) by omega]
          exact hca
        · rw [show j - 1 + t = j + (t - 1) by omega]
          exact hcb
    · rw [if_neg hg]
      exact h

theorem extFwd_okBlock (a b : List Char) (alo ahi blo bhi : Nat) (p : Char → Bool)
    (ha : ahi ≤ a.length) (hb : bhi ≤ b.length) :
    ∀ (fuel i j k : Nat), okBlock a b alo ahi blo bhi (i, j, k) →
    okBlock a b alo ahi blo bhi (extFwd a b ahi bhi p fuel i j k) := by
  intro fuel
  induction fuel with
  | zero => intro i j k h; exact h
  | succ fuel ih =>
    intro i j k h
    rw [extFwd]
    by_cases hg : i + k < ahi ∧ j + k < bhi ∧ p (b.getD (j + k) 'a') = true ∧
        a.getD (i + k) 'a' = b.getD (j + k) 'a'
    · rw [if_pos hg]
      rw [okBlock_mk] at h
      obtain ⟨h1, h2, h3, h4, h5⟩ := h
      refine ih i j (k + 1) ((okBlock_mk a b alo ahi blo bhi _ _ _).mpr
        ⟨h1, h2, by omega, by omega, fun t ht => ?_⟩)
      by_cases htk : t < k
      · exact h5 t htk
      · have ht' : t = k := by omega
        subst ht'
        have hia : i + t < a.length := by omega
        have hjb : j + t < b.length := by omega
        refine ⟨b.getD (j + t) 'a', ?_, ?_⟩
        · rw [get?_eq_getD a (i + t) hia, hg.2.2.2]
        · rw [get?_eq_getD b (j + t) hjb]
    · rw [if_neg hg]
      exact h

theorem findLongestMatch_okBlock (a b : List Char) (alo ahi blo bhi : Nat)
    (ha : ahi ≤ a.length) (hb : bhi ≤ b.length) (hwa : alo ≤ ahi) (hwb : blo ≤ bhi) :
    okBlock a b alo ahi blo bhi (findLongestMatch a b alo ahi blo bhi) := by
  have h0 : okBlock a b alo ahi blo bhi (flmLoop a b alo ahi blo bhi) := by
    rw [flmLoop_eq_grid a b alo ahi blo bhi ha]
    exact grid_fold_okBlock a b alo ahi blo bhi ha hb hwa hwb
  unfold findLongestMatch
  apply extFwd_okBlock a b alo ahi blo bhi bjunk ha hb
  apply extBack_okBlock a b alo ahi blo bhi bjunk ha hb
  apply extFwd_okBlock a b alo ahi blo bhi (fun c => !bjunk c) ha hb
  apply extBack_okBlock a b alo ahi blo bhi (fun c => !bjunk c) ha hb
  exact h0

theorem gmbTotal_le (a b : List Char) :
    ∀ (fuel alo ahi blo bhi : Nat), alo ≤ ahi → ahi ≤ a.length →
    blo ≤ bhi → bhi ≤ b.length →
    gmbTotal a b fuel alo ahi blo bhi ≤ min (ahi - alo) (bhi - blo) := by
  intro fuel
  induction fuel with
  | zero => intro alo ahi blo bhi _ _ _ _; exact Nat.zero_le _
  | succ fuel ih =>
    intro alo ahi blo bhi hwa ha hwb hb
    rw [gmbTotal]
    by_cases hk : (findLongestMatch a b alo ahi blo bhi).2.2 = 0
    · rw [if_pos hk]
      exact Nat.zero_le _
    · rw [if_neg hk]
      obtain ⟨h1, h2, h3, h4, _⟩ :=
        findLongestMatch_okBlock a b alo ahi blo bhi ha hb hwa hwb
      set m := findLongestMatch a b alo ahi blo bhi
      have hleft : (if alo < m.1 ∧ blo < m.2.1 then
          gmbTotal a b fuel alo m.1 blo m.2.1 else 0) ≤
          min (m.1 - alo) (m.2.1 - blo) := by
        split
        · exact ih alo m.1 blo m.2.1 (by omega) (by omega) (by omega) (by omega)
        · exact Nat.zero_le _
      have hright : (if m.1 + m.2.2 < ahi ∧ m.2.1 + m.2.2 < bhi then
          gmbTotal a b fuel (m.1 + m.2.2) ahi (m.2.1 + m.2.2) bhi else 0) ≤
          min (ahi - (m.1 + m.2.2)) (bhi - (m.2.1 + m.2.2)) := by
        split
        · exact ih (m.1 + m.2.2) ahi (m.2.1 + m.2.2) bhi (by omega) ha (by omega) hb
        · exact Nat.zero_le _
      omega

theorem matchesTotal_le (a b : List Char) :
    matchesTotal a b ≤ min a.length b.length := by
  have h := gmbTotal_le a b (a.length + b.length + 1) 0 a.length 0 b.length
    (Nat.zero_le _) (le_refl _) (Nat.zero_le _) (le_refl _)
  simpa using h

theorem ratioQ_bounds (a b : List Char) : 0 ≤ ratioQ a b ∧ ratioQ a b ≤ 1 := by
  unfold ratioQ calcRatioQ
  by_cases hl : 0 < a.length + b.length
  · rw [if_pos hl]
    constructor
    · positivity
    · rw [div_le_one (by positivity)]
      have hle := matchesTotal_le a b
      have h2 : 2 * matchesTotal a b ≤ a.length + b.length := by omega
      exact_mod_cast h2
  · rw [if_neg hl]
    norm_num

/-! ## Claim C9 (confirmed): the score lies in [0, 2.25] -/

/-- Claim C9: each score decomposes into a name similarity in [0,1], a path
term in [0,1/4], a substring bonus in {0, 1/4, 1/2} and a content bonus in
[0,1/2], so the total always lies in [0, 9/4] = [0, 2.25]. -/
theorem claim9_scoreBounds (rel_path query : List Char) (file : Option (List UInt8)) :
    (0 ≤ ratioQ (lower (basename rel_path)) (lower query) ∧
      ratioQ (lower (basename rel_path)) (lower query) ≤ 1) ∧
    (0 ≤ ratioQ (lower rel_path) (lower query) * (1/4) ∧
      ratioQ (lower rel_path) (lower query) * (1/4) ≤ 1/4) ∧
    (subBonus (lower query) (lower (basename rel_path)) (lower rel_path) = 0 ∨
      subBonus (lower query) (lower (basename rel_path)) (lower rel_path) = 1/4 ∨
      subBonus (lower query) (lower (basename rel_path)) (lower rel_path) = 1/2) ∧
    (0 ≤ contentBonus (lower query) file ∧ contentBonus (lower query) file ≤ 1/2) ∧
    (0 ≤ score_file rel_path query file ∧ score_file rel_path query file ≤ 9/4) := by
  have hname := ratioQ_bounds (lower (basename rel_path)) (lower query)
  have hrel := ratioQ_bounds (lower rel_path) (lower query)
  have hcb1 := contentBonus_nonneg (lower query) file
  have hcb2 := contentBonus_le_half (lower query) file
  have hsub : subBonus (lower query) (lower (basename rel_path)) (lower rel_path) = 0 ∨
      subBonus (lower query) (lower (basename rel_path)) (lower rel_path) = 1/4 ∨
      subBonus (lower query) (lower (basename rel_path)) (lower rel_path) = 1/2 := by
    unfold subBonus
    split
    · exact Or.inr (Or.inr rfl)
    · split
      · exact Or.inr (Or.inl rfl)
      · exact Or.inl rfl
  have hsub0 : 0 ≤ subBonus (lower query) (lower (basename rel_path)) (lower rel_path) ∧
      subBonus (lower query) (lower (basename rel_path)) (lower rel_path) ≤ 1/2 := by
    rcases hsub with h | h | h <;> rw [h] <;> norm_num
  refine ⟨hname, ⟨by nlinarith [hrel.1], by nlinarith [hrel.2]⟩, hsub, ⟨hcb1, hcb2⟩, ?_, ?_⟩
  · unfold score_file
    dsimp only
    nlinarith [hname.1, hrel.1, hsub0.1, hcb1]
  · unfold score_file
    dsimp only
    nlinarith [hname.2, hrel.2, hsub0.2, hcb2]

/-! ## Claim C10 (confirmed): the empty query -/

theorem extBack_noop (a b : List Char) (alo blo : Nat) (p : Char → Bool)
    (fuel i j k : Nat)
    (h : ¬(alo < i ∧ blo < j ∧ p (b.getD (j - 1) 'a') = true ∧
      a.getD (i - 1) 'a' = b.getD (j - 1) 'a')) :
    extBack a b alo blo p fuel i j k = (i, j, k) := by
  cases fuel with
  | zero => rfl
  | succ fuel => rw [extBack, if_neg h]

theorem extFwd_noop (a b : List Char) (ahi bhi : Nat) (p : Char → Bool)
    (fuel i j k : Nat)
    (h : ¬(i + k < ahi ∧ j + k < bhi ∧ p (b.getD (j + k) 'a') = true ∧
      a.getD (i + k) 'a' = b.getD (j + k) 'a')) :
    extFwd a b ahi bhi p fuel i j k = (i, j, k) := by
  cases fuel with
  | zero => rfl
  | succ fuel => rw [extFwd, if_neg h]

theorem flmLoop_empty_b (a : List Char) (alo ahi blo bhi : Nat) :
    flmLoop a [] alo ahi blo bhi = (alo, blo, 0) := by
  unfold flmLoop
  have hkeep : ∀ (L : List Nat) (st : (Nat → Nat) × Nat × Nat × Nat),
      (L.foldl (fun st i => flmInner a [] blo bhi i st.1 st.2) st).2 = st.2 := by
    intro L
    induction L with
    | nil => intro st; rfl
    | cons i t ih =>
      intro st
      rw [List.foldl_cons]
      rw [ih]
      rfl
  rw [hkeep]

theorem findLongestMatch_empty_b (a : List Char) (ahi : Nat) :
    findLongestMatch a [] 0 ahi 0 0 = (0, 0, 0) := by
  have e1 : extBack a [] 0 0 (fun c => !bjunk c) 0 0 0 0 = (0, 0, 0) := rfl
  have e2 : extFwd a [] ahi 0 (fun c => !bjunk c) ahi 0 0 0 = (0, 0, 0) :=
    extFwd_noop _ _ _ _ _ _ _ _ _ (fun h => by omega)
  have e3 : extBack a [] 0 0 bjunk 0 0 0 0 = (0, 0, 0) := rfl
  have e4 : extFwd a [] ahi 0 bjunk ahi 0 0 0 = (0, 0, 0) :=
    extFwd_noop _ _ _ _ _ _ _ _ _ (fun h => by omega)
  simp only [findLongestMatch, flmLoop_empty_b, e1, e2, e3, e4]

theorem matchesTotal_empty_b (a : List Char) : matchesTotal a [] = 0 := by
  unfold matchesTotal
  simp only [List.length_nil, Nat.add_zero]
  simp only [gmbTotal, findLongestMatch_empty_b]
  norm_num

theorem ratioQ_empty_b (a : List Char) (ha : a ≠ []) : ratioQ a [] = 0 := by
  unfold ratioQ calcRatioQ
  rw [matchesTotal_empty_b]
  simp only [List.length_nil, Nat.add_zero]
  rw [if_pos (List.length_pos.mpr ha)]
  norm_num

theorem isSub_nil (s : List Char) : isSub [] s = true := by
  unfold isSub
  rw [List.any_eq_true]
  exact ⟨0, by simp⟩

theorem basename_nil : basename [] = [] := rfl

theorem lowerChar_ne_nil (c : Char) : lowerChar c ≠ [] := by
  unfold lowerChar
  split <;> simp

theorem lower_ne_nil (s : List Char) (h : s ≠ []) : lower s ≠ [] := by
  cases s with
  | nil => exact absurd rfl h
  | cons c t =>
    unfold lower
    rw [List.flatMap_cons]
    intro hcon
    rw [List.append_eq_nil] at hcon
    exact lowerChar_ne_nil c hcon.1

theorem lower_length_ge (s : List Char) : s.length ≤ (lower s).length := by
  induction s with
  | nil => simp [lower]
  | cons c t ih =>
    unfold lower at ih ⊢
    rw [List.flatMap_cons, List.length_append, List.length_cons]
    have hc : 1 ≤ (lowerChar c).length := by
      unfold lowerChar
      split <;> simp
    omega

/-- Claim C10, as stated, is false on the code: the occurrence count runs on
the lowercased text, and CPython `str.lower` can lengthen the text.  The
2-byte file `C4 B0` decodes to the single character U+0130, whose lowercase
has two characters, so with the empty query the count is `3` and the content
bonus is `0.15`, not the claimed `min(0.50, 0.05 * (L + 1)) = 0.10` for the
decoded length `L = 1`. -/
theorem claim10_counterexample :
    (utf8DecodeIgnore (([0xC4, 0xB0] : List UInt8).take 1000000)).length = 1 ∧
    contentBonus (lower []) (some ([0xC4, 0xB0] : List UInt8)) = 3/20 ∧
    contentBonus (lower []) (some ([0xC4, 0xB0] : List UInt8)) ≠
      min (1/2) ((1/20) *
        (((utf8DecodeIgnore (([0xC4, 0xB0] : List UInt8).take 1000000)).length : ℚ)
          + 1)) := by
  have hlen1 : (utf8DecodeIgnore (([0xC4, 0xB0] : List UInt8).take 1000000)).length = 1 := by
    decide
  have hlowD : lower (utf8DecodeIgnore (([0xC4, 0xB0] : List UInt8).take 1000000)) =
      ['i', '\u0307'] := by
    decide
  have hcnt : pyCount ['i', '\u0307'] (lower []) = 3 := by decide
  have hb : contentBonus (lower []) (some ([0xC4, 0xB0] : List UInt8)) = 3/20 := by
    unfold contentBonus
    dsimp only
    rw [hlowD, if_pos (by decide), hcnt]
    rw [show ((3 : ℕ) : ℚ) = 3 by norm_num]
    rw [min_eq_right (by norm_num)]
    norm_num
  refine ⟨hlen1, hb, ?_⟩
  rw [hb, hlen1]
  rw [show ((1 : ℕ) : ℚ) = 1 by norm_num]
  rw [min_eq_right (by norm_num)]
  norm_num

/-- Claim C10, amended: with the empty query, every file whose basename is
nonempty has name and path similarity 0 (nonzero lengths, zero matches) yet
always earns the 0.50 name-substring bonus (never the 0.25 path branch, since
the empty string is a substring of the name); a readable file gets a content
bonus of `min(0.50, 0.05 * (L' + 1))` where `L'` is the length of the
*lowercased* decoded sample (which can exceed the decoded length, since
U+0130 lowercases to two characters), the empty string being counted
`L' + 1` times; since lowercasing never shortens the text, any readable file
with at least 9 decoded characters still scores exactly 1.00. -/
theorem claim10_amended (rel_path : List Char) (bytes : List UInt8)
    (hname : basename rel_path ≠ []) :
    ratioQ (lower (basename rel_path)) (lower []) = 0 ∧
    ratioQ (lower rel_path) (lower []) = 0 ∧
    isSub (lower []) (lower (basename rel_path)) = true ∧
    subBonus (lower []) (lower (basename rel_path)) (lower rel_path) = 1/2 ∧
    contentBonus (lower []) (some bytes) =
      min (1/2) ((1/20) *
        (((lower (utf8DecodeIgnore (bytes.take 1000000))).length : ℚ) + 1)) ∧
    score_file rel_path [] (some bytes) =
      1/2 + min (1/2) ((1/20) *
        (((lower (utf8DecodeIgnore (bytes.take 1000000))).length : ℚ) + 1)) ∧
    (9 ≤ (utf8DecodeIgnore (bytes.take 1000000)).length →
      score_file rel_path [] (some bytes) = 1) := by
  have hlow : lower ([] : List Char) = [] := rfl
  have hn : lower (basename rel_path) ≠ [] := lower_ne_nil _ hname
  have hrel0 : rel_path ≠ [] := by
    intro hcon
    rw [hcon] at hname
    exact hname basename_nil
  have hr : lower rel_path ≠ [] := lower_ne_nil _ hrel0
  have h1 : ratioQ (lower (basename rel_path)) (lower []) = 0 := by
    rw [hlow]; exact ratioQ_empty_b _ hn
  have h2 : ratioQ (lower rel_path) (lower []) = 0 := by
    rw [hlow]; exact ratioQ_empty_b _ hr
  have h3 : isSub (lower []) (lower (basename rel_path)) = true := by
    rw [hlow]; exact isSub_nil _
  have h4 : subBonus (lower []) (lower (basename rel_path)) (lower rel_path) = 1/2 := by
    unfold subBonus
    rw [if_pos h3]
  have h5 : contentBonus (lower []) (some bytes) =
      min (1/2) ((1/20) *
        (((lower (utf8DecodeIgnore (bytes.take 1000000))).length : ℚ) + 1)) := by
    rw [hlow]
    unfold contentBonus
    dsimp only
    rw [if_pos (isSub_nil _)]
    unfold pyCount
    rw [if_pos rfl]
    push_cast
    ring_nf
  have h6 : score_file rel_path [] (some bytes) =
      1/2 + min (1/2) ((1/20) *
        (((lower (utf8DecodeIgnore (bytes.take 1000000))).length : ℚ) + 1)) := by
    unfold score_file
    dsimp only
    rw [h1, h2, h4, h5]
    ring
  refine ⟨h1, h2, h3, h4, h5, h6, fun hL => ?_⟩
  rw [h6]
  have hge := lower_length_ge (utf8DecodeIgnore (bytes.take 1000000))
  have hcast : (9 : ℚ) ≤ ((lower (utf8DecodeIgnore (bytes.take 1000000))).length : ℚ) := by
    exact_mod_cast le_trans hL hge
  rw [min_eq_left (by linarith)]
  norm_num

/-- Witness for the amended C10: a 12-byte ASCII file with the empty query
scores 1. -/
theorem claim10_witness :
    basename ['a'] ≠ [] ∧
    score_file ['a'] [] (some (List.replicate 12 (65 : UInt8))) = 1 :=
  ⟨by decide,
    (claim10_amended ['a'] (List.replicate 12 (65 : UInt8)) (by decide)).2.2.2.2.2.2
      (by decide)⟩

/-! ## Claim C3: difflib ratio versus the reference gestalt ratio -/

theorem isPopularB_short (b : List Char) (c : Char) (h : b.length < 200) :
    isPopularB b c = false := by
  unfold isPopularB
  rw [decide_eq_false (by omega)]
  rfl

theorem okPairP_short (a b : List Char) (i j : Nat) (h : b.length < 200) :
    okPairP a b i j = true ↔
      ∃ c, a.get? i = some c ∧ b.get? j = some c := by
  rw [okPairP_iff]
  constructor
  · rintro ⟨c, h1, h2, _⟩
    exact ⟨c, h1, h2⟩
  · rintro ⟨c, h1, h2⟩
    exact ⟨c, h1, h2, isPopularB_short b c h⟩

theorem lcp_get (xs : List Char) :
    ∀ (ys : List Char) (m : Nat), m < lcp xs ys →
      ∃ c, xs.get? m = some c ∧ ys.get? m = some c := by
  induction xs with
  | nil => intro ys m hm; simp [lcp] at hm
  | cons x xt ih =>
    intro ys m hm
    cases ys with
    | nil => simp [lcp] at hm
    | cons y yt =>
      by_cases hxy : x = y
      · rw [lcp, if_pos hxy] at hm
        cases m with
        | zero => exact ⟨x, rfl, by rw [hxy]; rfl⟩
        | succ m =>
          obtain ⟨c, h1, h2⟩ := ih yt m (by omega)
          exact ⟨c, h1, h2⟩
      · rw [lcp, if_neg hxy] at hm
        omega

theorem lcp_ge (xs : List Char) :
    ∀ (ys : List Char) (k : Nat),
    (∀ m < k, ∃ c, xs.get? m = some c ∧ ys.get? m = some c) →
    k ≤ lcp xs ys := by
  induction xs with
  | nil =>
    intro ys k hk
    cases k with
    | zero => exact Nat.zero_le _
    | succ k =>
      obtain ⟨c, h1, _⟩ := hk 0 (by omega)
      simp at h1
  | cons x xt ih =>
    intro ys k hk
    cases k with
    | zero => exact Nat.zero_le _
    | succ k =>
      cases ys with
      | nil =>
        obtain ⟨c, _, h2⟩ := hk 0 (by omega)
        simp at h2
      | cons y yt =>
        obtain ⟨c, h1, h2⟩ := hk 0 (by omega)
        simp only [List.get?] at h1 h2
        have hxy : x = y := by
          rw [Option.some.injEq] at h1 h2
          rw [h1, h2]
        rw [lcp, if_pos hxy]
        have hrec : k ≤ lcp xt yt := by
          refine ih yt k (fun m hm => ?_)
          obtain ⟨c', h1', h2'⟩ := hk (m + 1) (by omega)
          exact ⟨c', h1', h2'⟩
        omega

theorem lcp_le_left (xs : List Char) : ∀ ys : List Char, lcp xs ys ≤ xs.length := by
  induction xs with
  | nil => intro ys; simp [lcp]
  | cons x xt ih =>
    intro ys
    cases ys with
    | nil => simp [lcp]
    | cons y yt =>
      by_cases hxy : x = y
      · rw [lcp, if_pos hxy]
        have := ih yt
        simp only [List.length_cons]
        omega
      · rw [lcp, if_neg hxy]
        exact Nat.zero_le _

theorem blockLen_pairs (a b : List Char) (ahi bhi i j : Nat) :
    ∀ t < blockLen a b ahi bhi i j,
      ∃ c, a.get? (i + t) = some c ∧ b.get? (j + t) = some c := by
  intro t ht
  unfold blockLen at ht
  have hlcp : t < lcp (a.drop i) (b.drop j) := by omega
  obtain ⟨c, h1, h2⟩ := lcp_get (a.drop i) (b.drop j) t hlcp
  rw [List.get?_drop] at h1 h2
  exact ⟨c, h1, h2⟩

theorem blockLen_ge_of_pairs (a b : List Char) (ahi bhi i j k : Nat)
    (hpairs : ∀ t < k, ∃ c, a.get? (i + t) = some c ∧ b.get? (j + t) = some c)
    (hra : i + k ≤ ahi) (hrb : j + k ≤ bhi) :
    k ≤ blockLen a b ahi bhi i j := by
  unfold blockLen
  have hlcp : k ≤ lcp (a.drop i) (b.drop j) := by
    refine lcp_ge (a.drop i) (b.drop j) k (fun m hm => ?_)
    obtain ⟨c, h1, h2⟩ := hpairs m hm
    refine ⟨c, ?_, ?_⟩
    · rw [List.get?_drop]; exact h1
    · rw [List.get?_drop]; exact h2
  omega

theorem wsuffP_chain_ge (a b : List Char) (alo blo i j : Nat)
    (hai : alo ≤ i) (hbj : blo ≤ j) (hpop : b.length < 200) :
    ∀ m, (∀ t, t ≤ m → ∃ c, a.get? (i + t) = some c ∧ b.get? (j + t) = some c) →
    m + 1 ≤ wsuffP a b alo blo (i + m) (j + m) := by
  intro m
  induction m with
  | zero =>
    intro hp
    rw [Nat.add_zero, Nat.add_zero, wsuffP_eq]
    rw [if_pos ⟨(okPairP_short a b i j hpop).mpr (by simpa using hp 0 (le_refl 0)), hai, hbj⟩]
    omega
  | succ m ih =>
    intro hp
    rw [wsuffP_eq]
    have hok : okPairP a b (i + (m + 1)) (j + (m + 1)) = true :=
      (okPairP_short a b _ _ hpop).mpr (hp (m + 1) (le_refl _))
    rw [if_pos ⟨hok, by omega, by omega⟩]
    rw [if_pos (show alo < i + (m + 1) ∧ blo < j + (m + 1) by omega)]
    have hrec := ih (fun t ht => hp t (by omega))
    have hstep : i + (m + 1) - 1 = i + m := by omega
    have hstep2 : j + (m + 1) - 1 = j + m := by omega
    rw [hstep, hstep2]
    omega

theorem specLM_eq_grid (a b : List Char) (alo ahi blo bhi : Nat) :
    specLM a b alo ahi blo bhi =
      (gridCells alo ahi blo bhi).foldl (bestStepS a b ahi bhi) (alo, blo, 0) := by
  unfold specLM gridCells
  rw [foldl_flatMapEq]
  exact List.foldl_ext _ _ _ (fun s i _ =>
    (List.foldl_map (fun j => (i, j)) (bestStepS a b ahi bhi)
      (List.range' blo (bhi - blo)) s).symm)

theorem cell_pos_iff (a b : List Char) (alo ahi blo bhi i j : Nat)
    (ha : ahi ≤ a.length) (hb : bhi ≤ b.length) (hpop : b.length < 200)
    (hi1 : alo ≤ i) (hi2 : i < ahi) (hj1 : blo ≤ j) (hj2 : j < bhi) :
    0 < wsuffP a b alo blo i j ↔ 0 < blockLen a b ahi bhi i j := by
  constructor
  · intro hw
    have hok : okPairP a b i j = true := by
      by_contra hcon
      rw [wsuffP_zero a b alo blo i j (fun hc => hcon hc.1)] at hw
      omega
    obtain ⟨c, h1, h2⟩ := (okPairP_short a b i j hpop).mp hok
    have := blockLen_ge_of_pairs a b ahi bhi i j 1
      (fun t ht => by
        have ht0 : t = 0 := by omega
        subst ht0
        exact ⟨c, by simpa using h1, by simpa using h2⟩)
      (by omega) (by omega)
    omega
  · intro hbl
    obtain ⟨c, h1, h2⟩ := blockLen_pairs a b ahi bhi i j 0 hbl
    have := wsuffP_chain_ge a b alo blo i j hi1 hj1 hpop 0
      (fun t ht => by
        have ht0 : t = 0 := by omega
        subst ht0
        exact ⟨c, h1, h2⟩)
    simpa using this

theorem decomp_all_le (f : Nat × Nat → Nat) (L1 : List (Nat × Nat)) (c : Nat × Nat)
    (L2 : List (Nat × Nat))
    (hlt : ∀ x ∈ L1, f x < f c) (hle : ∀ x ∈ L2, f x ≤ f c) :
    ∀ x ∈ L1 ++ c :: L2, f x ≤ f c := by
  intro x hx
  rcases List.mem_append.mp hx with h | h
  · exact le_of_lt (hlt x h)
  · rcases List.mem_cons.mp h with h | h
    · rw [h]
    · exact hle x h

theorem mem_L1_of_lexLt (L1 : List (Nat × Nat)) (c : Nat × Nat) (L2 : List (Nat × Nat))
    (hpw : (L1 ++ c :: L2).Pairwise lexLt) (x : Nat × Nat)
    (hx : x ∈ L1 ++ c :: L2) (hlt : lexLt x c) : x ∈ L1 := by
  rcases List.mem_append.mp hx with h | h
  · exact h
  · rcases List.mem_cons.mp h with h | h
    · subst h
      unfold lexLt at hlt
      omega
    · have := (pairwise_decomp lexLt L1 c L2 hpw).2 x h
      unfold lexLt at hlt this
      omega

theorem specLM_cases (a b : List Char) (alo ahi blo bhi : Nat) :
    (specLM a b alo ahi blo bhi = (alo, blo, 0) ∧
      ∀ c ∈ gridCells alo ahi blo bhi, blockLen a b ahi bhi c.1 c.2 = 0) ∨
    (∃ c, c ∈ gridCells alo ahi blo bhi ∧
      specLM a b alo ahi blo bhi = (c.1, c.2, blockLen a b ahi bhi c.1 c.2) ∧
      0 < blockLen a b ahi bhi c.1 c.2 ∧
      ∀ x ∈ gridCells alo ahi blo bhi,
        blockLen a b ahi bhi x.1 x.2 ≤ blockLen a b ahi bhi c.1 c.2) := by
  rw [specLM_eq_grid]
  have hre : (gridCells alo ahi blo bhi).foldl (bestStepS a b ahi bhi) (alo, blo, 0) =
      (gridCells alo ahi blo bhi).foldl
        (fun best c => if best.2.2 < blockLen a b ahi bhi c.1 c.2 then
          (c.1, c.2, blockLen a b ahi bhi c.1 c.2) else best) (alo, blo, 0) :=
    List.foldl_ext _ _ _ (fun s c _ => rfl)
  rw [hre]
  rcases foldBest_char (fun c => blockLen a b ahi bhi c.1 c.2)
      (fun c => (c.1, c.2, blockLen a b ahi bhi c.1 c.2)) (fun c => rfl)
      (gridCells alo ahi blo bhi) (alo, blo, 0) with
    ⟨heq, hall⟩ | ⟨L1, c, L2, hL, heq, hgt, hlt, hle⟩
  · refine Or.inl ⟨heq, fun c hc => ?_⟩
    have := hall c hc
    simpa using this
  · refine Or.inr ⟨c, ?_, heq, by simpa using hgt, ?_⟩
    · rw [hL]
      exact List.mem_append_right _ (List.mem_cons_self _ _)
    · intro x hx
      rw [hL] at hx
      exact decomp_all_le (fun c => blockLen a b ahi bhi c.1 c.2) L1 c L2 hlt hle x hx

theorem specLM_back_guard (a b : List Char) (alo ahi blo bhi : Nat)
    (ha : ahi ≤ a.length) (hb : bhi ≤ b.length) :
    ¬(alo < (specLM a b alo ahi blo bhi).1 ∧ blo < (specLM a b alo ahi blo bhi).2.1 ∧
      a.getD ((specLM a b alo ahi blo bhi).1 - 1) 'a' =
        b.getD ((specLM a b alo ahi blo bhi).2.1 - 1) 'a') := by
  rintro ⟨hg1, hg2, hg3⟩
  rcases specLM_cases a b alo ahi blo bhi with ⟨heq, _⟩ | ⟨c, hcm, heq, hpos, hmax⟩
  · rw [heq] at hg1
    simp at hg1
  · rw [heq] at hg1 hg2 hg3
    simp only at hg1 hg2 hg3
    rw [mem_gridCells] at hcm
    obtain ⟨hc1, hc2, hc3, hc4⟩ := hcm
    set K := blockLen a b ahi bhi c.1 c.2 with hK
    have hroom : c.1 + K ≤ ahi ∧ c.2 + K ≤ bhi := by
      rw [hK]
      unfold blockLen
      omega
    have hget : ∃ d, a.get? (c.1 - 1) = some d ∧ b.get? (c.2 - 1) = some d := by
      refine ⟨b.getD (c.2 - 1) 'a', ?_, ?_⟩
      · rw [get?_eq_getD a (c.1 - 1) (by omega), hg3]
      · rw [get?_eq_getD b (c.2 - 1) (by omega)]
    have hbig : K + 1 ≤ blockLen a b ahi bhi (c.1 - 1) (c.2 - 1) := by
      refine blockLen_ge_of_pairs a b ahi bhi (c.1 - 1) (c.2 - 1) (K + 1)
        (fun t ht => ?_) (by omega) (by omega)
      rcases Nat.eq_zero_or_pos t with ht0 | htpos
      · subst ht0
        simpa using hget
      · have hp := blockLen_pairs a b ahi bhi c.1 c.2 (t - 1) (by omega)
        obtain ⟨d, hd1, hd2⟩ := hp
        refine ⟨d, ?_, ?_⟩
        · rw [show c.1 - 1 + t = c.1 + (t - 1) by omega]
          exact hd1
        · rw [show c.2 - 1 + t = c.2 + (t - 1) by omega]
          exact hd2
    have hcell : ((c.1 - 1, c.2 - 1) : Nat × Nat) ∈ gridCells alo ahi blo bhi := by
      rw [mem_gridCells]
      exact ⟨by omega, by omega, by omega, by omega⟩
    have := hmax (c.1 - 1, c.2 - 1) hcell
    simp only at this
    omega

theorem specLM_fwd_guard (a b : List Char) (alo ahi blo bhi : Nat)
    (ha : ahi ≤ a.length) (hb : bhi ≤ b.length) :
    ¬((specLM a b alo ahi blo bhi).1 + (specLM a b alo ahi blo bhi).2.2 < ahi ∧
      (specLM a b alo ahi blo bhi).2.1 + (specLM a b alo ahi blo bhi).2.2 < bhi ∧
      a.getD ((specLM a b alo ahi blo bhi).1 + (specLM a b alo ahi blo bhi).2.2) 'a' =
        b.getD ((specLM a b alo ahi blo bhi).2.1 + (specLM a b alo ahi blo bhi).2.2) 'a') := by
  rintro ⟨hg1, hg2, hg3⟩
  rcases specLM_cases a b alo ahi blo bhi with ⟨heq, hall⟩ | ⟨c, hcm, heq, hpos, hmax⟩
  · rw [heq] at hg1 hg2 hg3
    simp only [Nat.add_zero] at hg1 hg2 hg3
    have hget : ∃ d, a.get? alo = some d ∧ b.get? blo = some d := by
      refine ⟨b.getD blo 'a', ?_, ?_⟩
      · rw [get?_eq_getD a alo (by omega), hg3]
      · rw [get?_eq_getD b blo (by omega)]
    have hbl : 1 ≤ blockLen a b ahi bhi alo blo := by
      refine blockLen_ge_of_pairs a b ahi bhi alo blo 1 (fun t ht => ?_)
        (by omega) (by omega)
      have ht0 : t = 0 := by omega
      subst ht0
      simpa using hget
    have hcell : ((alo, blo) : Nat × Nat) ∈ gridCells alo ahi blo bhi := by
      rw [mem_gridCells]
      exact ⟨le_refl _, by omega, le_refl _, by omega⟩
    have := hall (alo, blo) hcell
    simp only at this
    omega
  · rw [heq] at hg1 hg2 hg3
    simp only at hg1 hg2 hg3
    rw [mem_gridCells] at hcm
    obtain ⟨hc1, hc2, hc3, hc4⟩ := hcm
    set K := blockLen a b ahi bhi c.1 c.2 with hK
    have hget : ∃ d, a.get? (c.1 + K) = some d ∧ b.get? (c.2 + K) = some d := by
      refine ⟨b.getD (c.2 + K) 'a', ?_, ?_⟩
      · rw [get?_eq_getD a (c.1 + K) (by omega), hg3]
      · rw [get?_eq_getD b (c.2 + K) (by omega)]
    have hbig : K + 1 ≤ blockLen a b ahi bhi c.1 c.2 := by
      refine blockLen_ge_of_pairs a b ahi bhi c.1 c.2 (K + 1)
        (fun t ht => ?_) (by omega) (by omega)
      by_cases htK : t < K
      · exact blockLen_pairs a b ahi bhi c.1 c.2 t (hK ▸ htK)
      · have ht' : t = K := by omega
        subst ht'
        exact hget
    omega

theorem flmGrid_eq_specLM (a b : List Char) (alo ahi blo bhi : Nat)
    (ha : ahi ≤ a.length) (hb : bhi ≤ b.length) (hpop : b.length < 200) :
    (gridCells alo ahi blo bhi).foldl (bestStepE a b alo blo) (alo, blo, 0) =
      (gridCells alo ahi blo bhi).foldl (bestStepS a b ahi bhi) (alo, blo, 0) := by
  have hreE : (gridCells alo ahi blo bhi).foldl (bestStepE a b alo blo) (alo, blo, 0) =
      (gridCells alo ahi blo bhi).foldl
        (fun best c => if best.2.2 < wsuffP a b alo blo c.1 c.2 then
          (c.1 + 1 - wsuffP a b alo blo c.1 c.2, c.2 + 1 - wsuffP a b alo blo c.1 c.2,
            wsuffP a b alo blo c.1 c.2) else best) (alo, blo, 0) :=
    List.foldl_ext _ _ _ (fun s c _ => rfl)
  have hreS : (gridCells alo ahi blo bhi).foldl (bestStepS a b ahi bhi) (alo, blo, 0) =
      (gridCells alo ahi blo bhi).foldl
        (fun best c => if best.2.2 < blockLen a b ahi bhi c.1 c.2 then
          (c.1, c.2, blockLen a b ahi bhi c.1 c.2) else best) (alo, blo, 0) :=
    List.foldl_ext _ _ _ (fun s c _ => rfl)
  rw [hreE, hreS]
  rcases foldBest_char (fun c => wsuffP a b alo blo c.1 c.2)
      (fun c => (c.1 + 1 - wsuffP a b alo blo c.1 c.2, c.2 + 1 - wsuffP a b alo blo c.1 c.2,
        wsuffP a b alo blo c.1 c.2)) (fun c => rfl)
      (gridCells alo ahi blo bhi) (alo, blo, 0) with
    ⟨heqE, hallE⟩ | ⟨L1E, cE, L2E, hLE, heqE, hgtE, hltE, hleE⟩
  · rcases foldBest_char (fun c => blockLen a b ahi bhi c.1 c.2)
        (fun c => (c.1, c.2, blockLen a b ahi bhi c.1 c.2)) (fun c => rfl)
        (gridCells alo ahi blo bhi) (alo, blo, 0) with
      ⟨heqS, hallS⟩ | ⟨L1S, cS, L2S, hLS, heqS, hgtS, hltS, hleS⟩
    · rw [heqE, heqS]
    · exfalso
      have hcSm : cS ∈ gridCells alo ahi blo bhi := by
        rw [hLS]
        exact List.mem_append_right _ (List.mem_cons_self _ _)
      have hbS := (mem_gridCells alo ahi blo bhi cS).mp hcSm
      have hposS : 0 < blockLen a b ahi bhi cS.1 cS.2 := by simpa using hgtS
      have hposE : 0 < wsuffP a b alo blo cS.1 cS.2 :=
        (cell_pos_iff a b alo ahi blo bhi cS.1 cS.2 ha hb hpop
          hbS.1 hbS.2.1 hbS.2.2.1 hbS.2.2.2).mpr hposS
      have h0 : wsuffP a b alo blo cS.1 cS.2 ≤ 0 := hallE cS hcSm
      omega
  · rcases foldBest_char (fun c => blockLen a b ahi bhi c.1 c.2)
        (fun c => (c.1, c.2, blockLen a b ahi bhi c.1 c.2)) (fun c => rfl)
        (gridCells alo ahi blo bhi) (alo, blo, 0) with
      ⟨heqS, hallS⟩ | ⟨L1S, cS, L2S, hLS, heqS, hgtS, hltS, hleS⟩
    · exfalso
      have hcEm : cE ∈ gridCells alo ahi blo bhi := by
        rw [hLE]
        exact List.mem_append_right _ (List.mem_cons_self _ _)
      have hbE := (mem_gridCells alo ahi blo bhi cE).mp hcEm
      have hposE : 0 < wsuffP a b alo blo cE.1 cE.2 := by simpa using hgtE
      have hposS : 0 < blockLen a b ahi bhi cE.1 cE.2 :=
        (cell_pos_iff a b alo ahi blo bhi cE.1 cE.2 ha hb hpop
          hbE.1 hbE.2.1 hbE.2.2.1 hbE.2.2.2).mp hposE
      have h0 : blockLen a b ahi bhi cE.1 cE.2 ≤ 0 := hallS cE hcEm
      omega
    · rw [heqE, heqS]
      show (cE.1 + 1 - wsuffP a b alo blo cE.1 cE.2,
            cE.2 + 1 - wsuffP a b alo blo cE.1 cE.2,
            wsuffP a b alo blo cE.1 cE.2) =
          (cS.1, cS.2, blockLen a b ahi bhi cS.1 cS.2)
      have hcEm : cE ∈ gridCells alo ahi blo bhi := by
        rw [hLE]
        exact List.mem_append_right _ (List.mem_cons_self _ _)
      have hcSm : cS ∈ gridCells alo ahi blo bhi := by
        rw [hLS]
        exact List.mem_append_right _ (List.mem_cons_self _ _)
      have hbE := (mem_gridCells alo ahi blo bhi cE).mp hcEm
      have hbS := (mem_gridCells alo ahi blo bhi cS).mp hcSm
      have hposE : 0 < wsuffP a b alo blo cE.1 cE.2 := by simpa using hgtE
      have hposS : 0 < blockLen a b ahi bhi cS.1 cS.2 := by simpa using hgtS
      have hmaxE : ∀ x ∈ gridCells alo ahi blo bhi,
          wsuffP a b alo blo x.1 x.2 ≤ wsuffP a b alo blo cE.1 cE.2 := by
        intro x hx
        rw [hLE] at hx
        exact decomp_all_le (fun c => wsuffP a b alo blo c.1 c.2) L1E cE L2E hltE hleE x hx
      have hmaxS : ∀ x ∈ gridCells alo ahi blo bhi,
          blockLen a b ahi bhi x.1 x.2 ≤ blockLen a b ahi bhi cS.1 cS.2 := by
        intro x hx
        rw [hLS] at hx
        exact decomp_all_le (fun c => blockLen a b ahi bhi c.1 c.2) L1S cS L2S hltS hleS x hx
      obtain ⟨hw1, hw2, hw3⟩ := wsuffP_block a b alo blo cE.1 cE.2 hposE
      have hchainE : ∀ t < wsuffP a b alo blo cE.1 cE.2,
          ∃ c, a.get? (cE.1 + 1 - wsuffP a b alo blo cE.1 cE.2 + t) = some c ∧
            b.get? (cE.2 + 1 - wsuffP a b alo blo cE.1 cE.2 + t) = some c :=
        fun t ht => (okPairP_short a b _ _ hpop).mp (hw3 t ht)
      have hsS : wsuffP a b alo blo cE.1 cE.2 ≤
          blockLen a b ahi bhi (cE.1 + 1 - wsuffP a b alo blo cE.1 cE.2)
            (cE.2 + 1 - wsuffP a b alo blo cE.1 cE.2) :=
        blockLen_ge_of_pairs a b ahi bhi _ _ _ hchainE (by omega) (by omega)
      have hsmem : ((cE.1 + 1 - wsuffP a b alo blo cE.1 cE.2,
            cE.2 + 1 - wsuffP a b alo blo cE.1 cE.2) : Nat × Nat) ∈
          gridCells alo ahi blo bhi := by
        rw [mem_gridCells]
        show alo ≤ cE.1 + 1 - wsuffP a b alo blo cE.1 cE.2 ∧
          cE.1 + 1 - wsuffP a b alo blo cE.1 cE.2 < ahi ∧
          blo ≤ cE.2 + 1 - wsuffP a b alo blo cE.1 cE.2 ∧
          cE.2 + 1 - wsuffP a b alo blo cE.1 cE.2 < bhi
        refine ⟨by omega, by omega, by omega, by omega⟩
      have hb1 : blockLen a b ahi bhi (cE.1 + 1 - wsuffP a b alo blo cE.1 cE.2)
          (cE.2 + 1 - wsuffP a b alo blo cE.1 cE.2) ≤ blockLen a b ahi bhi cS.1 cS.2 :=
        hmaxS _ hsmem
      have hKElKS : wsuffP a b alo blo cE.1 cE.2 ≤ blockLen a b ahi bhi cS.1 cS.2 :=
        le_trans hsS hb1
      have hroomS : cS.1 + blockLen a b ahi bhi cS.1 cS.2 ≤ ahi ∧
          cS.2 + blockLen a b ahi bhi cS.1 cS.2 ≤ bhi := by
        unfold blockLen
        omega
      have hchainS := blockLen_pairs a b ahi bhi cS.1 cS.2
      have heE : blockLen a b ahi bhi cS.1 cS.2 ≤
          wsuffP a b alo blo (cS.1 + (blockLen a b ahi bhi cS.1 cS.2 - 1))
            (cS.2 + (blockLen a b ahi bhi cS.1 cS.2 - 1)) := by
        have := wsuffP_chain_ge a b alo blo cS.1 cS.2 hbS.1 hbS.2.2.1 hpop
          (blockLen a b ahi bhi cS.1 cS.2 - 1) (fun t ht => hchainS t (by omega))
        omega
      have hemem : ((cS.1 + (blockLen a b ahi bhi cS.1 cS.2 - 1),
            cS.2 + (blockLen a b ahi bhi cS.1 cS.2 - 1)) : Nat × Nat) ∈
          gridCells alo ahi blo bhi := by
        rw [mem_gridCells]
        show alo ≤ cS.1 + (blockLen a b ahi bhi cS.1 cS.2 - 1) ∧
          cS.1 + (blockLen a b ahi bhi cS.1 cS.2 - 1) < ahi ∧
          blo ≤ cS.2 + (blockLen a b ahi bhi cS.1 cS.2 - 1) ∧
          cS.2 + (blockLen a b ahi bhi cS.1 cS.2 - 1) < bhi
        refine ⟨by omega, by omega, by omega, by omega⟩
      have hb2 : wsuffP a b alo blo (cS.1 + (blockLen a b ahi bhi cS.1 cS.2 - 1))
          (cS.2 + (blockLen a b ahi bhi cS.1 cS.2 - 1)) ≤ wsuffP a b alo blo cE.1 cE.2 :=
        hmaxE _ hemem
      have hK : wsuffP a b alo blo cE.1 cE.2 = blockLen a b ahi bhi cS.1 cS.2 := by
        omega
      have hfSs : blockLen a b ahi bhi (cE.1 + 1 - wsuffP a b alo blo cE.1 cE.2)
          (cE.2 + 1 - wsuffP a b alo blo cE.1 cE.2) = blockLen a b ahi bhi cS.1 cS.2 := by
        omega
      have hcomp : cE.1 + 1 - wsuffP a b alo blo cE.1 cE.2 = cS.1 ∧
          cE.2 + 1 - wsuffP a b alo blo cE.1 cE.2 = cS.2 := by
        by_contra hne
        have htri : lexLt (cE.1 + 1 - wsuffP a b alo blo cE.1 cE.2,
              cE.2 + 1 - wsuffP a b alo blo cE.1 cE.2) cS ∨
            lexLt cS (cE.1 + 1 - wsuffP a b alo blo cE.1 cE.2,
              cE.2 + 1 - wsuffP a b alo blo cE.1 cE.2) := by
          unfold lexLt
          dsimp only
          omega
        rcases htri with hlt | hlt
        · have hmem1 : ((cE.1 + 1 - wsuffP a b alo blo cE.1 cE.2,
              cE.2 + 1 - wsuffP a b alo blo cE.1 cE.2) : Nat × Nat) ∈ L1S :=
            mem_L1_of_lexLt L1S cS L2S (hLS ▸ pairwise_lexLt_gridCells alo ahi blo bhi)
              _ (hLS ▸ hsmem) hlt
          have hx : blockLen a b ahi bhi (cE.1 + 1 - wsuffP a b alo blo cE.1 cE.2)
              (cE.2 + 1 - wsuffP a b alo blo cE.1 cE.2) <
              blockLen a b ahi bhi cS.1 cS.2 := hltS _ hmem1
          omega
        · have hlexE : lexLt (cS.1 + (blockLen a b ahi bhi cS.1 cS.2 - 1),
              cS.2 + (blockLen a b ahi bhi cS.1 cS.2 - 1)) cE := by
            unfold lexLt at hlt ⊢
            dsimp only at hlt ⊢
            omega
          have hmem1 : ((cS.1 + (blockLen a b ahi bhi cS.1 cS.2 - 1),
              cS.2 + (blockLen a b ahi bhi cS.1 cS.2 - 1)) : Nat × Nat) ∈ L1E :=
            mem_L1_of_lexLt L1E cE L2E (hLE ▸ pairwise_lexLt_gridCells alo ahi blo bhi)
              _ (hLE ▸ hemem) hlexE
          have hx : wsuffP a b alo blo (cS.1 + (blockLen a b ahi bhi cS.1 cS.2 - 1))
              (cS.2 + (blockLen a b ahi bhi cS.1 cS.2 - 1)) <
              wsuffP a b alo blo cE.1 cE.2 := hltE _ hmem1
          omega
      rw [hcomp.1, hcomp.2, hK]

theorem findLongestMatch_eq_specLM (a b : List Char) (alo ahi blo bhi : Nat)
    (ha : ahi ≤ a.length) (hb : bhi ≤ b.length) (hpop : b.length < 200) :
    findLongestMatch a b alo ahi blo bhi = specLM a b alo ahi blo bhi := by
  have hflm : flmLoop a b alo ahi blo bhi = specLM a b alo ahi blo bhi := by
    rw [flmLoop_eq_grid a b alo ahi blo bhi ha, specLM_eq_grid,
      flmGrid_eq_specLM a b alo ahi blo bhi ha hb hpop]
  have hback := specLM_back_guard a b alo ahi blo bhi ha hb
  have hfwd := specLM_fwd_guard a b alo ahi blo bhi ha hb
  have e1 : extBack a b alo blo (fun c => !bjunk c) (specLM a b alo ahi blo bhi).1
      (specLM a b alo ahi blo bhi).1 (specLM a b alo ahi blo bhi).2.1
      (specLM a b alo ahi blo bhi).2.2 = specLM a b alo ahi blo bhi :=
    extBack_noop a b alo blo _ _ _ _ _ (fun hg => hback ⟨hg.1, hg.2.1, hg.2.2.2⟩)
  have e2 : extFwd a b ahi bhi (fun c => !bjunk c) ahi (specLM a b alo ahi blo bhi).1
      (specLM a b alo ahi blo bhi).2.1 (specLM a b alo ahi blo bhi).2.2 =
      specLM a b alo ahi blo bhi :=
    extFwd_noop a b ahi bhi _ _ _ _ _ (fun hg => hfwd ⟨hg.1, hg.2.1, hg.2.2.2⟩)
  have e3 : extBack a b alo blo bjunk (specLM a b alo ahi blo bhi).1
      (specLM a b alo ahi blo bhi).1 (specLM a b alo ahi blo bhi).2.1
      (specLM a b alo ahi blo bhi).2.2 = specLM a b alo ahi blo bhi :=
    extBack_noop a b alo blo _ _ _ _ _ (fun hg => by simpa [bjunk] using hg.2.2.1)
  have e4 : extFwd a b ahi bhi bjunk ahi (specLM a b alo ahi blo bhi).1
      (specLM a b alo ahi blo bhi).2.1 (specLM a b alo ahi blo bhi).2.2 =
      specLM a b alo ahi blo bhi :=
    extFwd_noop a b ahi bhi _ _ _ _ _ (fun hg => by simpa [bjunk] using hg.2.2.1)
  simp only [findLongestMatch, hflm, e1, e2, e3, e4]

theorem gmbTotal_eq_gestalt (a b : List Char) (hpop : b.length < 200) :
    ∀ (fuel alo ahi blo bhi : Nat), ahi ≤ a.length → bhi ≤ b.length →
    gmbTotal a b fuel alo ahi blo bhi = gestaltTotal a b fuel alo ahi blo bhi := by
  intro fuel
  induction fuel with
  | zero => intro alo ahi blo bhi _ _; rfl
  | succ fuel ih =>
    intro alo ahi blo bhi ha hb
    simp only [gmbTotal, gestaltTotal]
    rw [findLongestMatch_eq_specLM a b alo ahi blo bhi ha hb hpop]
    rcases specLM_cases a b alo ahi blo bhi with ⟨heq, _⟩ | ⟨c, hcm, heq, hposK, _⟩
    · rw [heq]
      dsimp only
      rw [if_pos rfl, if_pos rfl]
    · rw [heq]
      rw [mem_gridCells] at hcm
      dsimp only
      have hKne : ¬(blockLen a b ahi bhi c.1 c.2 = 0) := by omega
      rw [if_neg hKne, if_neg hKne]
      have hL : (if alo < c.1 ∧ blo < c.2 then gmbTotal a b fuel alo c.1 blo c.2 else 0) =
          (if alo < c.1 ∧ blo < c.2 then gestaltTotal a b fuel alo c.1 blo c.2 else 0) := by
        split
        · exact ih alo c.1 blo c.2 (by omega) (by omega)
        · rfl
      have hR : (if c.1 + blockLen a b ahi bhi c.1 c.2 < ahi ∧
              c.2 + blockLen a b ahi bhi c.1 c.2 < bhi then
            gmbTotal a b fuel (c.1 + blockLen a b ahi bhi c.1 c.2) ahi
              (c.2 + blockLen a b ahi bhi c.1 c.2) bhi else 0) =
          (if c.1 + blockLen a b ahi bhi c.1 c.2 < ahi ∧
              c.2 + blockLen a b ahi bhi c.1 c.2 < bhi then
            gestaltTotal a b fuel (c.1 + blockLen a b ahi bhi c.1 c.2) ahi
              (c.2 + blockLen a b ahi bhi c.1 c.2) bhi else 0) := by
        split
        · exact ih (c.1 + blockLen a b ahi bhi c.1 c.2) ahi
            (c.2 + blockLen a b ahi bhi c.1 c.2) bhi ha hb
        · rfl
      rw [hL, hR]

theorem gestaltTotal_succ (a b : List Char) (fuel alo ahi blo bhi : Nat) :
    gestaltTotal a b (fuel + 1) alo ahi blo bhi =
      (if (specLM a b alo ahi blo bhi).2.2 = 0 then 0
       else (specLM a b alo ahi blo bhi).2.2 +
         (if alo < (specLM a b alo ahi blo bhi).1 ∧
             blo < (specLM a b alo ahi blo bhi).2.1 then
           gestaltTotal a b fuel alo (specLM a b alo ahi blo bhi).1 blo
             (specLM a b alo ahi blo bhi).2.1 else 0) +
         (if (specLM a b alo ahi blo bhi).1 + (specLM a b alo ahi blo bhi).2.2 < ahi ∧
             (specLM a b alo ahi blo bhi).2.1 + (specLM a b alo ahi blo bhi).2.2 < bhi then
           gestaltTotal a b fuel
             ((specLM a b alo ahi blo bhi).1 + (specLM a b alo ahi blo bhi).2.2) ahi
             ((specLM a b alo ahi blo bhi).2.1 + (specLM a b alo ahi blo bhi).2.2) bhi
           else 0)) := rfl

/-! ## Claim C3 (corrected): the sequence-similarity ratio versus the
reference gestalt definition -/

set_option maxRecDepth 400000 in
set_option maxHeartbeats 2000000 in
/-- Claim C3, as stated, is false on the code: difflib's `SequenceMatcher`
applies its autojunk heuristic as soon as the second sequence has at least
200 characters, purging every "popular" character from the index, so its
ratio can drop below the reference Ratcliff/Obershelp gestalt value.  On
`a = "y"`, `b = "x" * 100 + "y" * 100` the scorer's ratio is `0` while the
gestalt definition gives `2 / 201`. -/
theorem claim3_counterexample :
    ratioQ ['y'] (List.replicate 100 'x' ++ List.replicate 100 'y') ≠
      gestaltRatioQ ['y'] (List.replicate 100 'x' ++ List.replicate 100 'y') := by
  have h2 : (List.replicate 100 'x' ++ List.replicate 100 'y').length = 200 := by decide
  have hm : matchesTotal ['y'] (List.replicate 100 'x' ++ List.replicate 100 'y') = 0 := by
    show gmbTotal ['y'] (List.replicate 100 'x' ++ List.replicate 100 'y') 202 0 1 0 200 = 0
    decide
  have hr : ratioQ ['y'] (List.replicate 100 'x' ++ List.replicate 100 'y') = 0 := by
    unfold ratioQ calcRatioQ
    rw [hm, show (['y'] : List Char).length = 1 from rfl, h2]
    norm_num
  have hK1 : blockLen ['y'] (List.replicate 100 'x' ++ List.replicate 100 'y') 1 200 0 100 = 1 := by
    decide
  have hg1 : gestaltTotal ['y'] (List.replicate 100 'x' ++ List.replicate 100 'y')
      (1 + 200 + 1) 0 1 0 200 = 1 := by
    rcases specLM_cases ['y'] (List.replicate 100 'x' ++ List.replicate 100 'y')
        0 1 0 200 with ⟨heq, hall⟩ | ⟨c, hcm, heq, hpos, hmax⟩
    · exfalso
      have hmem : ((0, 100) : Nat × Nat) ∈ gridCells 0 1 0 200 := by
        rw [mem_gridCells]
        show (0 : Nat) ≤ 0 ∧ (0 : Nat) < 1 ∧ (0 : Nat) ≤ 100 ∧ (100 : Nat) < 200
        omega
      have h0 : blockLen ['y'] (List.replicate 100 'x' ++ List.replicate 100 'y')
          1 200 0 100 = 0 := hall (0, 100) hmem
      omega
    · have hb4 := (mem_gridCells 0 1 0 200 c).mp hcm
      have hKle : blockLen ['y'] (List.replicate 100 'x' ++ List.replicate 100 'y')
          1 200 c.1 c.2 ≤ 1 := by
        unfold blockLen
        omega
      rw [gestaltTotal_succ, heq]
      dsimp only
      rw [if_neg (by omega), if_neg (by omega), if_neg (by omega)]
      omega
  have hgr : gestaltRatioQ ['y'] (List.replicate 100 'x' ++ List.replicate 100 'y') =
      2 / 201 := by
    unfold gestaltRatioQ
    rw [show (['y'] : List Char).length = 1 from rfl, h2]
    rw [if_pos (by norm_num), hg1]
    norm_num
  rw [hr, hgr]
  norm_num

/-- Claim C3, amended: for every pair of strings whose second string (in the
scorer always the query) is shorter than 200 characters — so difflib's
autojunk heuristic is inert — the sequence-similarity ratio computed by the
scorer equals the reference Ratcliff/Obershelp gestalt definition: greedily
take the (first) longest common contiguous block, recurse on the prefix and
suffix remainders, sum the matched lengths, and return
`2 * (total matched characters) / (sum of the two string lengths)`. -/
theorem claim3_amended (a b : List Char) (h : b.length < 200) :
    ratioQ a b = gestaltRatioQ a b := by
  unfold ratioQ calcRatioQ matchesTotal gestaltRatioQ
  rw [gmbTotal_eq_gestalt a b h (a.length + b.length + 1) 0 a.length 0 b.length
    (le_refl _) (le_refl _)]
  by_cases hc : 0 < a.length + b.length
  · rw [if_pos hc, if_pos hc]
    push_cast
    ring
  · rw [if_neg hc, if_neg hc]

/-- Witness for the amended claim C3 at a concrete input. -/
theorem claim3_witness :
    (['b'] : List Char).length < 200 ∧
      ratioQ ['a', 'b'] ['b'] = gestaltRatioQ ['a', 'b'] ['b'] :=
  ⟨by decide, claim3_amended ['a', 'b'] ['b'] (by decide)⟩
